import Mathlib

/-!
Verification development for the ProxQP sparse solver core
(`qp/proxqp/solver_sparse.hpp`, `linearsolver/sparse/rowmod.hpp`).

The embedding works over exact rational arithmetic (`ℚ` stands for the
C++ scalar type `T`).  Dense vectors are total functions `Fin n → ℚ`,
sparse matrices are embedded by the linear map they represent
(`Fin m → Fin n → ℚ`); the sparse storage details are irrelevant to the
properties below except where a claim is about the storage itself, in
which case the storage bookkeeping (per-column nonzero counts, active
flags) is modelled explicitly.  Division by zero follows Lean's
convention `q / 0 = 0` except in the line-search breakpoint model, where
the sign behaviour of IEEE division is modelled explicitly because the
source relies on it.
-/

namespace ProxQP

/-- Infinity norm of a list of rationals: `max |aᵢ|`, `0` for the empty
list (matching `infty_norm` on an empty Eigen vector). -/
def inftyNormL (l : List ℚ) : ℚ :=
  l.foldr (fun a m => max |a| m) 0

/-- Infinity norm of a dense vector, as computed by `infty_norm`. -/
def inftyNorm {n : ℕ} (v : Fin n → ℚ) : ℚ :=
  inftyNormL (List.ofFn v)

/-- Dot product of two dense vectors. -/
def dotQ {n : ℕ} (a b : Fin n → ℚ) : ℚ := ∑ i, a i * b i

/-- Matrix–vector product `A x` for a dense embedding of a sparse matrix. -/
def mulVec {m n : ℕ} (A : Fin m → Fin n → ℚ) (x : Fin n → ℚ) : Fin m → ℚ :=
  fun i => dotQ (A i) x

/-- Transposed matrix–vector product `Aᵀ y`. -/
def mulVecT {m n : ℕ} (A : Fin m → Fin n → ℚ) (y : Fin m → ℚ) : Fin n → ℚ :=
  fun j => dotQ (fun i => A i j) y

/-- `detail::positive_part`: keep entries `> 0`, zero elsewhere. -/
def posPart {n : ℕ} (v : Fin n → ℚ) : Fin n → ℚ :=
  fun i => if 0 < v i then v i else 0

/-- `detail::negative_part`: keep entries `< 0`, zero elsewhere. -/
def negPart {n : ℕ} (v : Fin n → ℚ) : Fin n → ℚ :=
  fun i => if v i < 0 then v i else 0

/-! ## Ruiz preconditioner: scale / unscale operations

From `RuizEquilibration` in `solver_sparse.hpp`.  The equilibration state
is the diagonal vector `delta` of length `n + n_eq + n_in` (embedded as a
function `ℕ → ℚ`, only the first `n + n_eq + n_in` entries are used) and
the scalar cost scaling `c`.  `scale_primal_in_place` divides by
`delta.head(n)`, the dual variants use `delta.middleRows(n, n_eq)`
(equality block) and `delta.tail(n_in)` (inequality block, offset
`n + n_eq`) and additionally multiply respectively divide by `c`. -/

/-- `RuizEquilibration::scale_primal_in_place`: `primal /= delta.head(n)`. -/
def scale_primal_in_place {n : ℕ} (delta : ℕ → ℚ) (v : Fin n → ℚ) : Fin n → ℚ :=
  fun i => v i / delta i.val

/-- `RuizEquilibration::unscale_primal_in_place`: `primal *= delta.head(n)`. -/
def unscale_primal_in_place {n : ℕ} (delta : ℕ → ℚ) (v : Fin n → ℚ) : Fin n → ℚ :=
  fun i => v i * delta i.val

/-- `RuizEquilibration::scale_dual_in_place_eq`:
`dual = dual / delta.middleRows(n, n_eq) * c`. -/
def scale_dual_in_place_eq {nEq : ℕ} (delta : ℕ → ℚ) (c : ℚ) (n : ℕ)
    (v : Fin nEq → ℚ) : Fin nEq → ℚ :=
  fun i => v i / delta (n + i.val) * c

/-- `RuizEquilibration::unscale_dual_in_place_eq`:
`dual = dual * delta.middleRows(n, n_eq) / c`. -/
def unscale_dual_in_place_eq {nEq : ℕ} (delta : ℕ → ℚ) (c : ℚ) (n : ℕ)
    (v : Fin nEq → ℚ) : Fin nEq → ℚ :=
  fun i => v i * delta (n + i.val) / c

/-- `RuizEquilibration::scale_dual_in_place_in`:
`dual = dual / delta.tail(n_in) * c`; the tail of the length
`n + n_eq + n_in` vector `delta` starts at offset `n + n_eq`. -/
def scale_dual_in_place_in {nIn : ℕ} (delta : ℕ → ℚ) (c : ℚ) (nPlusNeq : ℕ)
    (v : Fin nIn → ℚ) : Fin nIn → ℚ :=
  fun i => v i / delta (nPlusNeq + i.val) * c

/-- `RuizEquilibration::unscale_dual_in_place_in`:
`dual = dual * delta.tail(n_in) / c`. -/
def unscale_dual_in_place_in {nIn : ℕ} (delta : ℕ → ℚ) (c : ℚ) (nPlusNeq : ℕ)
    (v : Fin nIn → ℚ) : Fin nIn → ℚ :=
  fun i => v i * delta (nPlusNeq + i.val) / c

/-- C9: for every vector `x` (primal), `y` (equality dual), `z`
(inequality dual) and every scaling state (`delta`, `c`) whose entries are
nonzero (as produced by equilibration, where every `delta` entry is
`1/(eps_mach + sqrt ·) > 0` and `c` a product of positive `gamma`),
applying a scale operation followed by its unscale operation, and vice
versa, returns the original vector, for all three pairs
`scale_primal_in_place`/`unscale_primal_in_place`,
`scale_dual_in_place_eq`/`unscale_dual_in_place_eq`,
`scale_dual_in_place_in`/`unscale_dual_in_place_in`. -/
theorem scale_unscale_round_trip
    {n nEq nIn : ℕ} (delta : ℕ → ℚ) (c : ℚ) (nDim nPlusNeq : ℕ)
    (x : Fin n → ℚ) (y : Fin nEq → ℚ) (z : Fin nIn → ℚ)
    (hdx : ∀ i : Fin n, delta i.val ≠ 0)
    (hdy : ∀ i : Fin nEq, delta (nDim + i.val) ≠ 0)
    (hdz : ∀ i : Fin nIn, delta (nPlusNeq + i.val) ≠ 0)
    (hc : c ≠ 0) :
    (∀ i, unscale_primal_in_place delta (scale_primal_in_place delta x) i = x i) ∧
    (∀ i, scale_primal_in_place delta (unscale_primal_in_place delta x) i = x i) ∧
    (∀ i, unscale_dual_in_place_eq delta c nDim (scale_dual_in_place_eq delta c nDim y) i
        = y i) ∧
    (∀ i, scale_dual_in_place_eq delta c nDim (unscale_dual_in_place_eq delta c nDim y) i
        = y i) ∧
    (∀ i, unscale_dual_in_place_in delta c nPlusNeq
        (scale_dual_in_place_in delta c nPlusNeq z) i = z i) ∧
    (∀ i, scale_dual_in_place_in delta c nPlusNeq
        (unscale_dual_in_place_in delta c nPlusNeq z) i = z i) := by
  refine ⟨fun i => ?_, fun i => ?_, fun i => ?_, fun i => ?_, fun i => ?_, fun i => ?_⟩
  · have hd := hdx i
    simp only [unscale_primal_in_place, scale_primal_in_place]
    field_simp
  · have hd := hdx i
    simp only [unscale_primal_in_place, scale_primal_in_place]
    field_simp
  · have hd := hdy i
    simp only [unscale_dual_in_place_eq, scale_dual_in_place_eq]
    field_simp
  · have hd := hdy i
    simp only [unscale_dual_in_place_eq, scale_dual_in_place_eq]
    field_simp
    ring
  · have hd := hdz i
    simp only [unscale_dual_in_place_in, scale_dual_in_place_in]
    field_simp
  · have hd := hdz i
    simp only [unscale_dual_in_place_in, scale_dual_in_place_in]
    field_simp
    ring

/-- Witness for `scale_unscale_round_trip` at a concrete scaling state. -/
theorem scale_unscale_round_trip_witness :
    ((∀ i : Fin 1, ((fun k => (k : ℚ) + 2) i.val : ℚ) ≠ 0) ∧
     (∀ i : Fin 1, ((fun k => (k : ℚ) + 2) (1 + i.val) : ℚ) ≠ 0) ∧
     (∀ i : Fin 1, ((fun k => (k : ℚ) + 2) (2 + i.val) : ℚ) ≠ 0) ∧
     (3 : ℚ) ≠ 0) ∧
    ((∀ i, unscale_primal_in_place (fun k => (k : ℚ) + 2)
        (scale_primal_in_place (fun k => (k : ℚ) + 2) (fun _ : Fin 1 => (5 : ℚ))) i
        = (5 : ℚ)) ∧
     (∀ i, scale_primal_in_place (fun k => (k : ℚ) + 2)
        (unscale_primal_in_place (fun k => (k : ℚ) + 2) (fun _ : Fin 1 => (5 : ℚ))) i
        = (5 : ℚ)) ∧
     (∀ i, unscale_dual_in_place_eq (fun k => (k : ℚ) + 2) 3 1
        (scale_dual_in_place_eq (fun k => (k : ℚ) + 2) 3 1 (fun _ : Fin 1 => (7 : ℚ))) i
        = (7 : ℚ)) ∧
     (∀ i, scale_dual_in_place_eq (fun k => (k : ℚ) + 2) 3 1
        (unscale_dual_in_place_eq (fun k => (k : ℚ) + 2) 3 1 (fun _ : Fin 1 => (7 : ℚ))) i
        = (7 : ℚ)) ∧
     (∀ i, unscale_dual_in_place_in (fun k => (k : ℚ) + 2) 3 2
        (scale_dual_in_place_in (fun k => (k : ℚ) + 2) 3 2 (fun _ : Fin 1 => (11 : ℚ))) i
        = (11 : ℚ)) ∧
     (∀ i, scale_dual_in_place_in (fun k => (k : ℚ) + 2) 3 2
        (unscale_dual_in_place_in (fun k => (k : ℚ) + 2) 3 2 (fun _ : Fin 1 => (11 : ℚ))) i
        = (11 : ℚ))) :=
  ⟨⟨by intro i; fin_cases i; norm_num, by intro i; fin_cases i; norm_num,
    by intro i; fin_cases i; norm_num, by norm_num⟩,
    scale_unscale_round_trip (fun k => (k : ℚ) + 2) 3 1 2
      (fun _ : Fin 1 => (5 : ℚ)) (fun _ : Fin 1 => (7 : ℚ)) (fun _ : Fin 1 => (11 : ℚ))
      (by intro i; fin_cases i; norm_num) (by intro i; fin_cases i; norm_num)
      (by intro i; fin_cases i; norm_num) (by norm_num)⟩

/-! ## Outer-loop BCL update and cold reset

From `qp_solve` in `solver_sparse.hpp`: the `bcl_update` lambda and the
cold-reset test that follows it.  The C++ `pow(base, e)` with a
fractional exponent is treated as an external math-library function and
passed in as `powq`; `bcl_eta_ext_init` is `pow(0.1, alpha_bcl)`. -/

/-- Result of one `bcl_update` call: the (possibly reverted) iterates,
the tentative new penalties `new_bcl_mu_eq`/`new_bcl_mu_in`, and the
updated tolerances. -/
structure BclResult (nDim nEq nIn : ℕ) where
  xOut : Fin nDim → ℚ
  yOut : Fin nEq → ℚ
  zOut : Fin nIn → ℚ
  newMuEq : ℚ
  newMuIn : ℚ
  etaExt : ℚ
  etaIn : ℚ

/-- The `bcl_update` lambda of `qp_solve`.  On acceptance
(`primal_feasibility_lhs_new ≤ bcl_eta_ext`) it tightens the tolerances
and keeps the penalties; on rejection it restores `y`, `z` from the
outer snapshots, increases the penalties capped at their maxima, and
resets both tolerances.  `x` is never touched. -/
def bcl_update {nDim nEq nIn : ℕ} (powq : ℚ → ℚ → ℚ)
    (alphaBcl betaBcl muUpdateFactor muMaxEq muMaxIn epsInMin : ℚ)
    (pfNew etaExt etaIn muEq muIn : ℚ)
    (x : Fin nDim → ℚ) (y : Fin nEq → ℚ) (z : Fin nIn → ℚ)
    (yPrev : Fin nEq → ℚ) (zPrev : Fin nIn → ℚ) : BclResult nDim nEq nIn :=
  if pfNew ≤ etaExt then
    { xOut := x, yOut := y, zOut := z, newMuEq := muEq, newMuIn := muIn
      etaExt := etaExt * (1 / powq muIn betaBcl)
      etaIn := max (etaIn / muIn) epsInMin }
  else
    let newIn := min (muIn * muUpdateFactor) muMaxIn
    let newEq := min (muEq * muUpdateFactor) muMaxEq
    { xOut := x, yOut := yPrev, zOut := zPrev, newMuEq := newEq, newMuIn := newIn
      etaExt := powq (1 / 10) alphaBcl / powq newIn alphaBcl
      etaIn := 1 / max newIn epsInMin }

/-- C5: in every outer iteration where the BCL test rejects the step
(post-inner primal feasibility `>` η_ext), the dual iterates are
reverted to the outer snapshots (`y ← y_prev`, `z ← z_prev`, `x` kept),
the penalties become `min (μ · mu_update_factor) μ_max` for both blocks,
`η_ext` becomes `(0.1^α_bcl) / new_μ_in^α_bcl` and `η_in` becomes
`1 / max new_μ_in η_in_min`. -/
theorem bcl_update_rejection {nDim nEq nIn : ℕ} (powq : ℚ → ℚ → ℚ)
    (alphaBcl betaBcl muUpdateFactor muMaxEq muMaxIn epsInMin : ℚ)
    (pfNew etaExt etaIn muEq muIn : ℚ)
    (x : Fin nDim → ℚ) (y : Fin nEq → ℚ) (z : Fin nIn → ℚ)
    (yPrev : Fin nEq → ℚ) (zPrev : Fin nIn → ℚ)
    (hrej : etaExt < pfNew) :
    (∀ i, (bcl_update powq alphaBcl betaBcl muUpdateFactor muMaxEq muMaxIn epsInMin
        pfNew etaExt etaIn muEq muIn x y z yPrev zPrev).xOut i = x i) ∧
    (∀ i, (bcl_update powq alphaBcl betaBcl muUpdateFactor muMaxEq muMaxIn epsInMin
        pfNew etaExt etaIn muEq muIn x y z yPrev zPrev).yOut i = yPrev i) ∧
    (∀ i, (bcl_update powq alphaBcl betaBcl muUpdateFactor muMaxEq muMaxIn epsInMin
        pfNew etaExt etaIn muEq muIn x y z yPrev zPrev).zOut i = zPrev i) ∧
    (bcl_update powq alphaBcl betaBcl muUpdateFactor muMaxEq muMaxIn epsInMin
        pfNew etaExt etaIn muEq muIn x y z yPrev zPrev).newMuIn
      = min (muIn * muUpdateFactor) muMaxIn ∧
    (bcl_update powq alphaBcl betaBcl muUpdateFactor muMaxEq muMaxIn epsInMin
        pfNew etaExt etaIn muEq muIn x y z yPrev zPrev).newMuEq
      = min (muEq * muUpdateFactor) muMaxEq ∧
    (bcl_update powq alphaBcl betaBcl muUpdateFactor muMaxEq muMaxIn epsInMin
        pfNew etaExt etaIn muEq muIn x y z yPrev zPrev).etaExt
      = powq (1 / 10) alphaBcl / powq (min (muIn * muUpdateFactor) muMaxIn) alphaBcl ∧
    (bcl_update powq alphaBcl betaBcl muUpdateFactor muMaxEq muMaxIn epsInMin
        pfNew etaExt etaIn muEq muIn x y z yPrev zPrev).etaIn
      = 1 / max (min (muIn * muUpdateFactor) muMaxIn) epsInMin := by
  have hcond : ¬ pfNew ≤ etaExt := not_le.mpr hrej
  simp [bcl_update, hcond]

/-- Witness for `bcl_update_rejection` at concrete inputs. -/
theorem bcl_update_rejection_witness :
    ((1 : ℚ) / 2 < 1) ∧
    ((∀ i, (bcl_update (fun a b => a * b) 1 (9 / 10) 10 (10 ^ 10) (10 ^ 8) (1 / 10 ^ 9)
        1 (1 / 2) 1 1000 10 (fun _ : Fin 1 => (2 : ℚ)) (fun _ : Fin 1 => (3 : ℚ))
        (fun _ : Fin 1 => (4 : ℚ)) (fun _ : Fin 1 => (5 : ℚ))
        (fun _ : Fin 1 => (6 : ℚ))).xOut i = (2 : ℚ)) ∧
     (∀ i, (bcl_update (fun a b => a * b) 1 (9 / 10) 10 (10 ^ 10) (10 ^ 8) (1 / 10 ^ 9)
        1 (1 / 2) 1 1000 10 (fun _ : Fin 1 => (2 : ℚ)) (fun _ : Fin 1 => (3 : ℚ))
        (fun _ : Fin 1 => (4 : ℚ)) (fun _ : Fin 1 => (5 : ℚ))
        (fun _ : Fin 1 => (6 : ℚ))).yOut i = (5 : ℚ)) ∧
     (∀ i, (bcl_update (fun a b => a * b) 1 (9 / 10) 10 (10 ^ 10) (10 ^ 8) (1 / 10 ^ 9)
        1 (1 / 2) 1 1000 10 (fun _ : Fin 1 => (2 : ℚ)) (fun _ : Fin 1 => (3 : ℚ))
        (fun _ : Fin 1 => (4 : ℚ)) (fun _ : Fin 1 => (5 : ℚ))
        (fun _ : Fin 1 => (6 : ℚ))).zOut i = (6 : ℚ)) ∧
     (bcl_update (fun a b => a * b) 1 (9 / 10) 10 (10 ^ 10) (10 ^ 8) (1 / 10 ^ 9)
        1 (1 / 2) 1 1000 10 (fun _ : Fin 1 => (2 : ℚ)) (fun _ : Fin 1 => (3 : ℚ))
        (fun _ : Fin 1 => (4 : ℚ)) (fun _ : Fin 1 => (5 : ℚ))
        (fun _ : Fin 1 => (6 : ℚ))).newMuIn = min ((10 : ℚ) * 10) (10 ^ 8) ∧
     (bcl_update (fun a b => a * b) 1 (9 / 10) 10 (10 ^ 10) (10 ^ 8) (1 / 10 ^ 9)
        1 (1 / 2) 1 1000 10 (fun _ : Fin 1 => (2 : ℚ)) (fun _ : Fin 1 => (3 : ℚ))
        (fun _ : Fin 1 => (4 : ℚ)) (fun _ : Fin 1 => (5 : ℚ))
        (fun _ : Fin 1 => (6 : ℚ))).newMuEq = min ((1000 : ℚ) * 10) (10 ^ 10) ∧
     (bcl_update (fun a b => a * b) 1 (9 / 10) 10 (10 ^ 10) (10 ^ 8) (1 / 10 ^ 9)
        1 (1 / 2) 1 1000 10 (fun _ : Fin 1 => (2 : ℚ)) (fun _ : Fin 1 => (3 : ℚ))
        (fun _ : Fin 1 => (4 : ℚ)) (fun _ : Fin 1 => (5 : ℚ))
        (fun _ : Fin 1 => (6 : ℚ))).etaExt
        = (fun a b => a * b) ((1 : ℚ) / 10) 1
            / (fun a b => a * b) (min ((10 : ℚ) * 10) (10 ^ 8)) 1 ∧
     (bcl_update (fun a b => a * b) 1 (9 / 10) 10 (10 ^ 10) (10 ^ 8) (1 / 10 ^ 9)
        1 (1 / 2) 1 1000 10 (fun _ : Fin 1 => (2 : ℚ)) (fun _ : Fin 1 => (3 : ℚ))
        (fun _ : Fin 1 => (4 : ℚ)) (fun _ : Fin 1 => (5 : ℚ))
        (fun _ : Fin 1 => (6 : ℚ))).etaIn
        = 1 / max (min ((10 : ℚ) * 10) (10 ^ 8)) (1 / 10 ^ 9)) :=
  ⟨by norm_num,
    bcl_update_rejection (fun a b => a * b) 1 (9 / 10) 10 (10 ^ 10) (10 ^ 8) (1 / 10 ^ 9)
      1 (1 / 2) 1 1000 10 (fun _ : Fin 1 => (2 : ℚ)) (fun _ : Fin 1 => (3 : ℚ))
      (fun _ : Fin 1 => (4 : ℚ)) (fun _ : Fin 1 => (5 : ℚ)) (fun _ : Fin 1 => (6 : ℚ))
      (by norm_num)⟩

/-- The cold-reset step of `qp_solve` (right after `bcl_update` and the
recomputation of the dual feasibility).  The source condition is
`primal_feasibility_lhs_new >= primal_feasibility_lhs &&
dual_feasibility_lhs_new >= primal_feasibility_lhs && mu_in >= 1e5`;
note that the second comparison is against the pre-inner PRIMAL
feasibility value.  When it holds, the tentative penalties from
`bcl_update` are overridden by the cold-reset values. -/
def cold_reset_update (pfOld pfNew dfNew muIn coldMuEq coldMuIn newMuEq newMuIn : ℚ) :
    ℚ × ℚ :=
  if pfOld ≤ pfNew ∧ pfOld ≤ dfNew ∧ 100000 ≤ muIn then (coldMuEq, coldMuIn)
  else (newMuEq, newMuIn)

/-- C4's wording, for comparison with the source: reset exactly when the
post-inner primal feasibility failed to decrease relative to its
pre-inner value, the post-inner dual feasibility failed to decrease
relative to its pre-inner DUAL value, and `μ_in ≥ 1e5`. -/
def cold_reset_claim_condition (pfOld pfNew dfOld dfNew muIn : ℚ) : Prop :=
  pfOld ≤ pfNew ∧ dfOld ≤ dfNew ∧ 100000 ≤ muIn

/-- Counterexample to C4 as stated: with pre-inner primal feasibility 1,
post-inner primal feasibility 2, pre-inner dual feasibility 1/2,
post-update dual feasibility 7/10 and `μ_in = 1e5`, the claim's
condition holds (`2 ≥ 1`, `7/10 ≥ 1/2`, `μ_in ≥ 1e5`) yet the code does
not perform the cold reset, because it compares the new dual
feasibility against the pre-inner PRIMAL value (`7/10 < 1`). -/
theorem cold_reset_counterexample :
    cold_reset_claim_condition 1 2 (1 / 2) (7 / 10) 100000 ∧
    cold_reset_update 1 2 (7 / 10) 100000 2 2 10 10 = (10, 10) ∧
    ((10 : ℚ), (10 : ℚ)) ≠ ((2 : ℚ), (2 : ℚ)) := by
  refine ⟨⟨by norm_num, by norm_num, by norm_num⟩, ?_, by norm_num⟩
  rw [cold_reset_update, if_neg]
  intro h
  have := h.2.1
  norm_num at this

/-- C4 amended: the cold-reset assignment happens exactly when the
post-inner primal feasibility failed to decrease relative to its
pre-inner value, AND the dual feasibility recomputed after `bcl_update`
failed to fall below the pre-inner PRIMAL feasibility value, AND
`μ_in ≥ 1e5`. -/
theorem cold_reset_exactly_when
    (pfOld pfNew dfNew muIn coldMuEq coldMuIn newMuEq newMuIn : ℚ)
    (hne : (coldMuEq, coldMuIn) ≠ (newMuEq, newMuIn)) :
    cold_reset_update pfOld pfNew dfNew muIn coldMuEq coldMuIn newMuEq newMuIn
        = (coldMuEq, coldMuIn)
      ↔ (pfOld ≤ pfNew ∧ pfOld ≤ dfNew ∧ 100000 ≤ muIn) := by
  rw [cold_reset_update]
  split_ifs with h
  · exact iff_of_true rfl h
  · exact iff_of_false (fun he => hne (he.symm)) h

/-- Witness for `cold_reset_exactly_when` at concrete inputs. -/
theorem cold_reset_exactly_when_witness :
    ((2 : ℚ), (2 : ℚ)) ≠ ((10 : ℚ), (10 : ℚ)) ∧
    (cold_reset_update 1 2 3 200000 2 2 10 10 = (2, 2)
      ↔ ((1 : ℚ) ≤ 2 ∧ (1 : ℚ) ≤ 3 ∧ (100000 : ℚ) ≤ 200000)) :=
  ⟨by norm_num, cold_reset_exactly_when 1 2 3 200000 2 2 10 10 (by norm_num)⟩

/-! ## Ruiz equilibration round loop

From `detail::ruiz_scale_qp_in_place` in `solver_sparse.hpp`:

    i64 iter = 1;
    while (infty_norm((1 - delta.array()).matrix()) > epsilon) {
      if (iter == max_iter) { break; } else { ++iter; }
      <one scaling round>
    }

The scaling round (recomputing `delta` from the current row norms and
rescaling `H, A, C, g, b, l, u` in place) is embedded as a state
transformer `body`, and `deltaNorm` stands for
`infty_norm(1 - delta.array())` of a state.  The loop is driven by the
remaining-iteration fuel `max_iter - iter`; since `iter` starts at `1`
and the loop breaks (before the round) as soon as `iter == max_iter`,
the entry fuel is `max_iter - 1`. -/

/-- The `while` loop of `ruiz_scale_qp_in_place`, parameterised by the
remaining fuel.  Returns the number of scaling rounds executed and the
final state. -/
def ruiz_scale_loop {S : Type} (body : S → S) (deltaNorm : S → ℚ) (eps : ℚ) :
    ℕ → S → ℕ × S
  | 0, s => (0, s)
  | fuel + 1, s =>
    if deltaNorm s ≤ eps then (0, s)
    else
      let r := ruiz_scale_loop body deltaNorm eps fuel (body s)
      (r.1 + 1, r.2)

/-- `ruiz_scale_qp_in_place`'s round loop with the source's counter
convention: `iter` starts at `1` and the loop breaks when
`iter == max_iter`, so the available fuel is `max_iter - 1`. -/
def ruiz_scale_qp_rounds {S : Type} (body : S → S) (deltaNorm : S → ℚ) (eps : ℚ)
    (maxIter : ℕ) (s : S) : ℕ × S :=
  ruiz_scale_loop body deltaNorm eps (maxIter - 1) s

/-- Loop invariant of `ruiz_scale_loop`: the round count is bounded by
the fuel, every executed round started with `‖1 - δ‖_∞ > ε`, an early
stop happens exactly at a state satisfying the criterion, and the final
state is the body iterated round-count times. -/
theorem ruiz_scale_loop_spec {S : Type} (body : S → S) (dn : S → ℚ) (eps : ℚ) :
    ∀ (fuel : ℕ) (s : S),
      (ruiz_scale_loop body dn eps fuel s).1 ≤ fuel ∧
      (∀ j, j < (ruiz_scale_loop body dn eps fuel s).1 → eps < dn (body^[j] s)) ∧
      ((ruiz_scale_loop body dn eps fuel s).1 < fuel →
        dn (body^[(ruiz_scale_loop body dn eps fuel s).1] s) ≤ eps) ∧
      (ruiz_scale_loop body dn eps fuel s).2
        = body^[(ruiz_scale_loop body dn eps fuel s).1] s := by
  intro fuel
  induction fuel with
  | zero =>
    intro s
    refine ⟨le_refl _, ?_, ?_, ?_⟩
    · intro j hj
      simp [ruiz_scale_loop] at hj
    · intro h
      simp [ruiz_scale_loop] at h
    · simp [ruiz_scale_loop]
  | succ f ih =>
    intro s
    by_cases h : dn s ≤ eps
    · refine ⟨?_, ?_, ?_, ?_⟩
      · simp [ruiz_scale_loop, h]
      · intro j hj
        simp [ruiz_scale_loop, h] at hj
      · intro _
        simp [ruiz_scale_loop, h]
      · simp [ruiz_scale_loop, h]
    · obtain ⟨ih1, ih2, ih3, ih4⟩ := ih (body s)
      have hres : ruiz_scale_loop body dn eps (f + 1) s
          = ((ruiz_scale_loop body dn eps f (body s)).1 + 1,
             (ruiz_scale_loop body dn eps f (body s)).2) := by
        simp [ruiz_scale_loop, h]
      refine ⟨?_, ?_, ?_, ?_⟩
      · rw [hres]
        exact Nat.succ_le_succ ih1
      · intro j hj
        rw [hres] at hj
        cases j with
        | zero =>
          simpa using lt_of_not_le h
        | succ j =>
          have hj2 : j < (ruiz_scale_loop body dn eps f (body s)).1 :=
            Nat.lt_of_succ_lt_succ hj
          have := ih2 j hj2
          rwa [Function.iterate_succ_apply]
      · intro hlt
        rw [hres] at hlt ⊢
        have hlt2 : (ruiz_scale_loop body dn eps f (body s)).1 < f :=
          Nat.lt_of_succ_lt_succ hlt
        have := ih3 hlt2
        rwa [Function.iterate_succ_apply]
      · rw [hres]
        rw [Function.iterate_succ_apply]
        exact ih4

/-- C6 amended: for every round body and every start state, the Ruiz
loop with bound `max_iter ≥ 1` executes at most `max_iter - 1` scaling
rounds (9 for the default `max_iter = 10`), every executed round starts
with `‖1 - δ‖_∞ > ε`, an early stop happens exactly at a round start
satisfying `‖1 - δ‖_∞ ≤ ε`, and when the criterion is never met exactly
`max_iter - 1` rounds are performed. -/
theorem ruiz_round_count {S : Type} (body : S → S) (dn : S → ℚ) (eps : ℚ)
    (maxIter : ℕ) (s : S) (_hmax : 1 ≤ maxIter) :
    (ruiz_scale_qp_rounds body dn eps maxIter s).1 ≤ maxIter - 1 ∧
    (∀ j, j < (ruiz_scale_qp_rounds body dn eps maxIter s).1 →
      eps < dn (body^[j] s)) ∧
    ((ruiz_scale_qp_rounds body dn eps maxIter s).1 < maxIter - 1 →
      dn (body^[(ruiz_scale_qp_rounds body dn eps maxIter s).1] s) ≤ eps) ∧
    ((∀ j, eps < dn (body^[j] s)) →
      (ruiz_scale_qp_rounds body dn eps maxIter s).1 = maxIter - 1) := by
  obtain ⟨h1, h2, h3, _⟩ := ruiz_scale_loop_spec body dn eps (maxIter - 1) s
  refine ⟨h1, h2, h3, ?_⟩
  intro hnever
  by_contra hne
  have hlt : (ruiz_scale_qp_rounds body dn eps maxIter s).1 < maxIter - 1 :=
    lt_of_le_of_ne h1 hne
  exact absurd (h3 hlt) (not_le.mpr (hnever _))

/-- Witness for `ruiz_round_count` on the default bound `max_iter = 10`
and a trajectory that never meets the stopping criterion. -/
theorem ruiz_round_count_witness :
    (1 ≤ 10) ∧
    ((ruiz_scale_qp_rounds (fun s : ℚ => s) (fun _ => (1 : ℚ)) (1 / 1000) 10 0).1
        ≤ 10 - 1 ∧
     (∀ j, j < (ruiz_scale_qp_rounds (fun s : ℚ => s) (fun _ => (1 : ℚ))
          (1 / 1000) 10 0).1 →
        (1 : ℚ) / 1000 < (fun _ => (1 : ℚ)) ((fun s : ℚ => s)^[j] 0)) ∧
     ((ruiz_scale_qp_rounds (fun s : ℚ => s) (fun _ => (1 : ℚ)) (1 / 1000) 10 0).1
          < 10 - 1 →
        (fun _ => (1 : ℚ))
            ((fun s : ℚ => s)^[(ruiz_scale_qp_rounds (fun s : ℚ => s)
              (fun _ => (1 : ℚ)) (1 / 1000) 10 0).1] 0) ≤ 1 / 1000) ∧
     ((∀ j, (1 : ℚ) / 1000 < (fun _ => (1 : ℚ)) ((fun s : ℚ => s)^[j] 0)) →
        (ruiz_scale_qp_rounds (fun s : ℚ => s) (fun _ => (1 : ℚ)) (1 / 1000) 10 0).1
          = 10 - 1)) :=
  ⟨by norm_num,
    ruiz_round_count (fun s : ℚ => s) (fun _ => (1 : ℚ)) (1 / 1000) 10 0 (by norm_num)⟩

/-- Counterexample to C6 as stated: with the default `max_iter = 10` and
a trajectory on which the early-stop criterion `‖1 - δ‖_∞ ≤ ε` is never
met (here `‖1 - δ‖_∞` stays `1 > 1e-3`), the loop performs exactly `9`
scaling rounds, not the `10` the claim asserts. -/
theorem ruiz_round_count_counterexample :
    (∀ j : ℕ, ¬ ((fun _ : ℚ => (1 : ℚ)) ((fun s : ℚ => s)^[j] 0) ≤ 1 / 1000)) ∧
    (ruiz_scale_qp_rounds (fun s : ℚ => s) (fun _ => (1 : ℚ)) (1 / 1000) 10 0).1 = 9 ∧
    9 ≠ 10 := by
  refine ⟨?_, ?_, by norm_num⟩
  · intro j
    norm_num
  · obtain ⟨h1, _, h3, _⟩ :=
      ruiz_scale_loop_spec (fun s : ℚ => s) (fun _ => (1 : ℚ)) (1 / 1000) (10 - 1) 0
    have h9 : (10 : ℕ) - 1 = 9 := by norm_num
    by_contra hne
    have hlt : (ruiz_scale_qp_rounds (fun s : ℚ => s) (fun _ => (1 : ℚ))
        (1 / 1000) 10 0).1 < 10 - 1 := by
      refine lt_of_le_of_ne h1 ?_
      intro he
      exact hne (by rw [he, h9])
    have := h3 hlt
    norm_num at this

/-! ## Inner (semi-smooth Newton) loop: exit conditions

From the `primal_dual_newton_semi_smooth` lambda of `qp_solve`:

    for (isize iter_inner = 0; iter_inner < settings.max_iter_in; ++iter_inner) {
      <newton step, line search producing alpha, dw>
      if (alpha * infty_norm(dw) < T(1e-11) && iter > 0) { return; }
      <update iterates and residuals>
      <compute err_in>
      if (err_in <= bcl_eta_in) { return; }
    }

`iter` in the small-step test is the OUTER loop counter (the lambda
captures it from the enclosing `for (isize iter = 0; ...)`), not
`iter_inner`.  The step computation is embedded as trajectory functions:
`stepSize t` is `alpha * infty_norm(dw)` at inner iteration `t` and
`errIn t` the value of `err_in` computed there. -/

/-- Exit kinds of the inner loop. -/
inductive InnerExit
  | smallStep
  | converged
  | maxIterReached
deriving DecidableEq, Repr

/-- The threshold `1e-11` of the small-step test. -/
def smallStepTol : ℚ := 1 / 10 ^ 11

/-- Exit behaviour of the inner semi-smooth Newton loop: `outerIter` is
the enclosing outer-loop counter, `fuel` the remaining inner iterations
(`max_iter_in - t` at entry of iteration `t`).  Returns the exit kind
and the inner iteration index at which the loop exited. -/
def primal_dual_newton_exit (outerIter : ℕ) (stepSize errIn : ℕ → ℚ) (etaIn : ℚ) :
    ℕ → ℕ → InnerExit × ℕ
  | 0, t => (.maxIterReached, t)
  | fuel + 1, t =>
    if stepSize t < smallStepTol ∧ 0 < outerIter then (.smallStep, t)
    else if errIn t ≤ etaIn then (.converged, t)
    else primal_dual_newton_exit outerIter stepSize errIn etaIn fuel (t + 1)

/-- In outer iteration `0` the small-step exit can never fire, no matter
how small the steps are or how many inner iterations have run. -/
theorem inner_no_small_step_outer_zero (stepSize errIn : ℕ → ℚ) (etaIn : ℚ) :
    ∀ (fuel t : ℕ),
      (primal_dual_newton_exit 0 stepSize errIn etaIn fuel t).1 ≠ InnerExit.smallStep := by
  intro fuel
  induction fuel with
  | zero =>
    intro t
    simp [primal_dual_newton_exit]
  | succ f ih =>
    intro t
    rw [primal_dual_newton_exit]
    rw [if_neg (by simp)]
    by_cases h : errIn t ≤ etaIn
    · simp [h]
    · rw [if_neg h]
      exact ih (t + 1)

/-- When the outer counter is positive, a small first step exits the
inner loop immediately, already at its very first iteration. -/
theorem inner_small_step_fires (outerIter : ℕ) (stepSize errIn : ℕ → ℚ)
    (etaIn : ℚ) (fuel t : ℕ) (houter : 0 < outerIter)
    (hfuel : 0 < fuel) (hstep : stepSize t < smallStepTol) :
    primal_dual_newton_exit outerIter stepSize errIn etaIn fuel t
      = (InnerExit.smallStep, t) := by
  cases fuel with
  | zero => exact absurd hfuel (lt_irrefl 0)
  | succ f =>
    rw [primal_dual_newton_exit]
    rw [if_pos ⟨hstep, houter⟩]

/-- Whenever the loop exits through the small-step branch, the outer
counter was positive and the step at the exit iteration was below the
threshold. -/
theorem inner_small_step_characterised (outerIter : ℕ) (stepSize errIn : ℕ → ℚ)
    (etaIn : ℚ) :
    ∀ (fuel t : ℕ),
      (primal_dual_newton_exit outerIter stepSize errIn etaIn fuel t).1
          = InnerExit.smallStep →
        0 < outerIter ∧
        stepSize (primal_dual_newton_exit outerIter stepSize errIn etaIn fuel t).2
          < smallStepTol := by
  intro fuel
  induction fuel with
  | zero =>
    intro t h
    simp [primal_dual_newton_exit] at h
  | succ f ih =>
    intro t h
    rw [primal_dual_newton_exit] at h ⊢
    by_cases h1 : stepSize t < smallStepTol ∧ 0 < outerIter
    · rw [if_pos h1] at h ⊢
      exact ⟨h1.2, h1.1⟩
    · rw [if_neg h1] at h ⊢
      by_cases h2 : errIn t ≤ etaIn
      · rw [if_pos h2] at h
        simp at h
      · rw [if_neg h2] at h ⊢
        exact ih (t + 1) h

/-- C3 amended: the small-step exit `α·‖dw‖_∞ < 1e-11` of the inner
loop is conditioned on the OUTER iteration counter being positive, not
on the inner iteration count: in outer iteration `0` it never fires
(regardless of the inner count), in every later outer iteration it
fires as soon as the step is small — already at the first inner
iteration — and every small-step exit indeed had a step below `1e-11`
and a positive outer counter.  The other exits (`err_in ≤ η_in`,
`max_iter_in` exhausted) are as the claim states. -/
theorem inner_small_step_exit (stepSize errIn : ℕ → ℚ) (etaIn : ℚ)
    (outerIter fuel t : ℕ) :
    ((outerIter = 0 →
        (primal_dual_newton_exit 0 stepSize errIn etaIn fuel t).1
          ≠ InnerExit.smallStep) ∧
     (0 < outerIter → 0 < fuel → stepSize t < smallStepTol →
        primal_dual_newton_exit outerIter stepSize errIn etaIn fuel t
          = (InnerExit.smallStep, t)) ∧
     ((primal_dual_newton_exit outerIter stepSize errIn etaIn fuel t).1
          = InnerExit.smallStep →
        0 < outerIter ∧
        stepSize (primal_dual_newton_exit outerIter stepSize errIn etaIn fuel t).2
          < smallStepTol)) :=
  ⟨fun _ => inner_no_small_step_outer_zero stepSize errIn etaIn fuel t,
   fun houter hfuel hstep =>
     inner_small_step_fires outerIter stepSize errIn etaIn fuel t houter hfuel hstep,
   fun h => inner_small_step_characterised outerIter stepSize errIn etaIn fuel t h⟩

/-- Witness for `inner_small_step_exit` at concrete inputs: in outer
iteration `1`, a first step of size `0 < 1e-11` exits the inner loop at
inner iteration `0`. -/
theorem inner_small_step_exit_witness :
    (0 : ℕ) < 1 ∧ (0 : ℕ) < 2 ∧ (fun _ : ℕ => (0 : ℚ)) 0 < smallStepTol ∧
    primal_dual_newton_exit 1 (fun _ => (0 : ℚ)) (fun _ => (1 : ℚ)) 0 2 0
      = (InnerExit.smallStep, 0) :=
  ⟨by norm_num, by norm_num, by norm_num [smallStepTol],
    (inner_small_step_exit (fun _ => (0 : ℚ)) (fun _ => (1 : ℚ)) 0 1 2 0).2.1
      (by norm_num) (by norm_num) (by norm_num [smallStepTol])⟩

/-- Counterexample to C3 as stated: with `α·‖dw‖_∞ = 0 < 1e-11` at every
inner iteration (in particular after the first one), the inner loop of
outer iteration `0` never takes the small-step exit — the `iter > 0`
guard tests the OUTER counter — while in outer iteration `1` the
small-step exit fires already at the FIRST inner iteration. -/
theorem inner_small_step_counterexample :
    (0 : ℚ) < smallStepTol ∧
    (primal_dual_newton_exit 0 (fun _ => (0 : ℚ)) (fun _ => (1 : ℚ)) 0 2 0).1
      ≠ InnerExit.smallStep ∧
    primal_dual_newton_exit 1 (fun _ => (0 : ℚ)) (fun _ => (1 : ℚ)) 0 2 0
      = (InnerExit.smallStep, 0) :=
  ⟨by norm_num [smallStepTol],
   inner_no_small_step_outer_zero (fun _ => (0 : ℚ)) (fun _ => (1 : ℚ)) 0 2 0,
   inner_small_step_fires 1 (fun _ => (0 : ℚ)) (fun _ => (1 : ℚ)) 0 2 0
     (by norm_num) (by norm_num) (by norm_num [smallStepTol])⟩

/-! ## Line search: breakpoint candidate collection

From the line-search section of `qp_solve`:

    for (isize i = 0; i < n_in; ++i) {
      T alpha_candidates[2] = {
          -primal_residual_in_scaled_lo(i) / (Cdx(i)),
          -primal_residual_in_scaled_up(i) / (Cdx(i)),
      };
      for (auto alpha_candidate : alpha_candidates) {
        if (alpha_candidate > 0) { alphas[alphas_count] = alpha_candidate; ++alphas_count; }
      }
    }

There is no guard on `Cdx(i) == 0`.  The divisions are IEEE-754 double
divisions, whose outcome for a zero denominator is `±∞` (or NaN for
`0/0`); the sign test `> 0` on these special values is modelled exactly
(`+∞ > 0` holds, `-∞ > 0` and `NaN > 0` do not).  For nonzero
denominators the quotient is modelled in exact arithmetic. -/

/-- Result of an IEEE division: a finite value, a signed infinity, or
NaN. -/
inductive FDiv
  | fin (q : ℚ)
  | pinf
  | ninf
  | nan
deriving DecidableEq, Repr

/-- IEEE-754 division of finite values: `±∞` on division of a nonzero
numerator by zero, NaN for `0/0`, the exact quotient otherwise. -/
def ieee_div (num den : ℚ) : FDiv :=
  if den = 0 then
    if 0 < num then .pinf else if num < 0 then .ninf else .nan
  else .fin (num / den)

/-- The IEEE comparison `x > 0`: true for `+∞` and positive finite
values, false for `-∞`, NaN and nonpositive finite values. -/
def fdiv_is_pos : FDiv → Bool
  | .fin q => decide (0 < q)
  | .pinf => true
  | .ninf => false
  | .nan => false

/-- The breakpoint candidates pushed into `alphas` by the line search of
`qp_solve`, in source order: for each `i`, `-r_in_lo[i]/(C dx)[i]` then
`-r_in_up[i]/(C dx)[i]`, kept when the IEEE comparison `> 0` holds. -/
def breakpoint_candidates {nIn : ℕ} (lo up Cdx : Fin nIn → ℚ) : List FDiv :=
  ((List.ofFn (fun i => [ieee_div (-(lo i)) (Cdx i), ieee_div (-(up i)) (Cdx i)])).flatten).filter
    fdiv_is_pos

/-- C7's wording: candidates `-r_in_lo[i]/(C dx)[i]` and
`-r_in_up[i]/(C dx)[i]` exactly for the indices with nonzero
denominator, restricted to strictly positive values; no candidate for an
index with zero denominator. -/
def breakpoint_candidates_claim {nIn : ℕ} (lo up Cdx : Fin nIn → ℚ) : List ℚ :=
  ((List.ofFn (fun i =>
      if Cdx i ≠ 0 then [(-(lo i)) / Cdx i, (-(up i)) / Cdx i] else [])).flatten).filter
    (fun q => decide (0 < q))

/-- The candidate pair at one index, with the IEEE zero-denominator
behaviour made explicit. -/
theorem ieee_candidate_pair (lq uq d : ℚ) :
    [ieee_div (-lq) d, ieee_div (-uq) d].filter fdiv_is_pos
      = if d = 0 then
          ([-lq, -uq].filter (fun q => decide (0 < q))).map (fun _ => FDiv.pinf)
        else
          ([(-lq) / d, (-uq) / d].filter (fun q => decide (0 < q))).map FDiv.fin := by
  by_cases hd : d = 0
  · subst hd
    rw [if_pos rfl]
    by_cases h1 : 0 < -lq
    · by_cases h2 : 0 < -uq
      · simp [ieee_div, List.filter, fdiv_is_pos, h1, h2]
      · by_cases h3 : -uq < 0
        · simp [ieee_div, List.filter, fdiv_is_pos, h1, h2, h3, not_lt.mpr (le_of_lt h3)]
        · simp [ieee_div, List.filter, fdiv_is_pos, h1, h2, h3]
    · by_cases h1b : -lq < 0
      · by_cases h2 : 0 < -uq
        · simp [ieee_div, List.filter, fdiv_is_pos, h1, h1b, h2]
        · by_cases h3 : -uq < 0
          · simp [ieee_div, List.filter, fdiv_is_pos, h1, h1b, h2, h3]
          · simp [ieee_div, List.filter, fdiv_is_pos, h1, h1b, h2, h3]
      · by_cases h2 : 0 < -uq
        · simp [ieee_div, List.filter, fdiv_is_pos, h1, h1b, h2]
        · by_cases h3 : -uq < 0
          · simp [ieee_div, List.filter, fdiv_is_pos, h1, h1b, h2, h3]
          · simp [ieee_div, List.filter, fdiv_is_pos, h1, h1b, h2, h3]
  · rw [if_neg hd]
    by_cases h1 : 0 < (-lq) / d
    · by_cases h2 : 0 < (-uq) / d
      · simp [ieee_div, List.filter, fdiv_is_pos, hd, h1, h2]
      · simp [ieee_div, List.filter, fdiv_is_pos, hd, h1, h2]
    · by_cases h2 : 0 < (-uq) / d
      · simp [ieee_div, List.filter, fdiv_is_pos, hd, h1, h2]
      · simp [ieee_div, List.filter, fdiv_is_pos, hd, h1, h2]

/-- C7 amended: the candidate list consists, for each index `i` with
nonzero denominator `(C dx)[i]`, of exactly the strictly positive
quotients `-r_in_lo[i]/(C dx)[i]`, `-r_in_up[i]/(C dx)[i]`; but for an
index with ZERO denominator, a `+∞` candidate is also produced for each
side whose negated shifted residual is strictly positive (the IEEE
quotient is `+∞ > 0`) — there is no zero-denominator guard. -/
theorem breakpoint_candidates_characterised {nIn : ℕ} (lo up Cdx : Fin nIn → ℚ) :
    breakpoint_candidates lo up Cdx
      = (List.ofFn (fun i =>
          if Cdx i = 0 then
            ([-(lo i), -(up i)].filter (fun q => decide (0 < q))).map (fun _ => FDiv.pinf)
          else
            ([(-(lo i)) / Cdx i, (-(up i)) / Cdx i].filter
                (fun q => decide (0 < q))).map FDiv.fin)).flatten := by
  rw [breakpoint_candidates]
  rw [List.filter_flatten]
  rw [List.map_ofFn]
  have hfun : (List.filter fdiv_is_pos ∘ fun i =>
        [ieee_div (-(lo i)) (Cdx i), ieee_div (-(up i)) (Cdx i)])
      = fun i =>
          if Cdx i = 0 then
            ([-(lo i), -(up i)].filter (fun q => decide (0 < q))).map (fun _ => FDiv.pinf)
          else
            ([(-(lo i)) / Cdx i, (-(up i)) / Cdx i].filter
                (fun q => decide (0 < q))).map FDiv.fin := by
    funext i
    exact ieee_candidate_pair (lo i) (up i) (Cdx i)
  rw [hfun]

/-- Counterexample to C7 as stated: with a single inequality whose
denominator `(C dx)[0]` is zero and `r_in_lo[0] = -1`, the source pushes
the IEEE quotient `-(-1)/0 = +∞` (which passes the `> 0` test) into the
candidate list, whereas the claim asserts that no candidate is produced
for an index with zero denominator. -/
theorem breakpoint_candidates_counterexample :
    (fun _ : Fin 1 => (0 : ℚ)) 0 = 0 ∧
    breakpoint_candidates (fun _ : Fin 1 => (-1 : ℚ)) (fun _ => (1 : ℚ))
        (fun _ => (0 : ℚ)) = [FDiv.pinf] ∧
    breakpoint_candidates_claim (fun _ : Fin 1 => (-1 : ℚ)) (fun _ => (1 : ℚ))
        (fun _ => (0 : ℚ)) = [] := by
  refine ⟨rfl, ?_, ?_⟩
  · rw [breakpoint_candidates]
    norm_num [List.ofFn_succ, ieee_div, List.filter, fdiv_is_pos]
  · rw [breakpoint_candidates_claim]
    norm_num [List.ofFn_succ, List.filter]

/-! ## Iterative refinement wrapper around the LDLᵀ solve

From the `ldl_iter_solve_noalias` lambda of `qp_solve`:

    sol_e.setZero();
    T prev_err_norm = infinity;
    for (isize solve_iter = 0; solve_iter < settings.nb_iterative_refinement; ++solve_iter) {
      err = -rhs_e;
      if (solve_iter > 0) { <err += K * sol, blockwise> }
      T err_norm = infty_norm(err_z);          // z-block only!
      if (err_norm > prev_err_norm) { break; }
      prev_err_norm = err_norm;
      ldl_solve(err, err);
      sol_e -= err;
    }

The blockwise residual accumulation uses `H_scaled` (symmetric), `rho`,
`A_scaled`, the active-masked `C_active` columns of the KKT matrix, and
the diagonal `-1/mu_eq` resp. `active ? -1/mu_in : 1`.  The inner
`ldl_solve` (one application of the current factorization) is the
factorization kernel's triangular solve, treated as a black box per the
specification, and passed in as `solve`. -/

/-- A KKT-space vector split into its primal, equality and inequality
blocks. -/
structure Vec3 (n nEq nIn : ℕ) where
  vx : Fin n → ℚ
  vy : Fin nEq → ℚ
  vz : Fin nIn → ℚ

/-- Blockwise difference of KKT-space vectors (`sol_e -= err`). -/
def vec3_sub {n nEq nIn : ℕ} (a b : Vec3 n nEq nIn) : Vec3 n nEq nIn :=
  ⟨fun i => a.vx i - b.vx i, fun i => a.vy i - b.vy i, fun i => a.vz i - b.vz i⟩

/-- The refinement residual `err` of one pass: `-rhs` on the first pass
(`solve_iter == 0`, where `sol = 0`), and `K·sol - rhs` accumulated
blockwise afterwards, exactly as in the source. -/
def irErr {n nEq nIn : ℕ} (H : Fin n → Fin n → ℚ) (A : Fin nEq → Fin n → ℚ)
    (Cact : Fin nIn → Fin n → ℚ) (rho muEq muIn : ℚ) (act : Fin nIn → Bool)
    (rhs : Vec3 n nEq nIn) (first : Bool) (sol : Vec3 n nEq nIn) : Vec3 n nEq nIn :=
  if first then ⟨fun i => -rhs.vx i, fun i => -rhs.vy i, fun i => -rhs.vz i⟩
  else
    ⟨fun i => -rhs.vx i + mulVec H sol.vx i + rho * sol.vx i
        + mulVecT A sol.vy i + mulVecT Cact sol.vz i,
     fun i => -rhs.vy i + mulVec A sol.vx i + (-1 / muEq) * sol.vy i,
     fun i => -rhs.vz i + mulVec Cact sol.vx i
        + (if act i then -1 / muIn else 1) * sol.vz i⟩

/-- The break test `err_norm > prev_err_norm`, with
`prev_err_norm = infinity` before the first pass modelled as `none`. -/
def gtPrev (prev : Option ℚ) (zn : ℚ) : Bool :=
  match prev with
  | none => false
  | some p => decide (p < zn)

/-- The refinement loop.  Each entry of the returned list records the
pair (full residual norm `‖K·sol − rhs‖_∞`, z-block residual norm
`‖(K·sol − rhs)_z‖_∞`) computed during that pass, in chronological
order; the boolean records whether the loop exited through the `break`. -/
def ir_loop {n nEq nIn : ℕ} (residF : Bool → Vec3 n nEq nIn → Vec3 n nEq nIn)
    (solve : Vec3 n nEq nIn → Vec3 n nEq nIn) :
    ℕ → Bool → Option ℚ → Vec3 n nEq nIn → Vec3 n nEq nIn × List (ℚ × ℚ) × Bool
  | 0, _, _, sol => (sol, [], false)
  | fuel + 1, first, prev, sol =>
    let err := residF first sol
    let zn := inftyNorm err.vz
    let fn := max (inftyNorm err.vx) (max (inftyNorm err.vy) (inftyNorm err.vz))
    if gtPrev prev zn then (sol, [(fn, zn)], true)
    else
      let r := ir_loop residF solve fuel false (some zn) (vec3_sub sol (solve err))
      (r.1, (fn, zn) :: r.2.1, r.2.2)

/-- `ldl_iter_solve_noalias`: run the refinement loop from `sol = 0`
with `prev_err_norm = ∞` for at most `nb_iterative_refinement` passes. -/
def ldl_iter_solve_noalias {n nEq nIn : ℕ} (H : Fin n → Fin n → ℚ)
    (A : Fin nEq → Fin n → ℚ) (Cact : Fin nIn → Fin n → ℚ)
    (rho muEq muIn : ℚ) (act : Fin nIn → Bool)
    (solve : Vec3 n nEq nIn → Vec3 n nEq nIn) (nbIR : ℕ) (rhs : Vec3 n nEq nIn) :
    Vec3 n nEq nIn × List (ℚ × ℚ) × Bool :=
  ir_loop (irErr H A Cact rho muEq muIn act rhs) solve nbIR true none
    ⟨fun _ => 0, fun _ => 0, fun _ => 0⟩

/-- The recorded z-norms form a run of passed break tests ending in one
failed test: every pass but the last had `z-norm ≤` its predecessor
(`≤ ∞` for the first), and the last strictly exceeded its
predecessor. -/
def stopPattern : Option ℚ → List (ℚ × ℚ) → Prop
  | _, [] => False
  | prev, [q] => gtPrev prev q.2 = true
  | prev, q :: q2 :: rest => gtPrev prev q.2 = false ∧ stopPattern (some q.2) (q2 :: rest)

/-- All break tests passed: each pass's z-norm did not strictly exceed
its predecessor's. -/
def noZIncrease : Option ℚ → List (ℚ × ℚ) → Prop
  | _, [] => True
  | prev, q :: rest => gtPrev prev q.2 = false ∧ noZIncrease (some q.2) rest

/-- Loop invariant of `ir_loop`: at most `fuel` passes are entered; if
the loop broke, the recorded z-norms end with the one strict increase
that triggered the break; if it did not break, no pass's z-norm strictly
exceeded its predecessor's. -/
theorem ir_loop_spec {n nEq nIn : ℕ} (residF : Bool → Vec3 n nEq nIn → Vec3 n nEq nIn)
    (solve : Vec3 n nEq nIn → Vec3 n nEq nIn) :
    ∀ (fuel : ℕ) (first : Bool) (prev : Option ℚ) (sol : Vec3 n nEq nIn),
      (ir_loop residF solve fuel first prev sol).2.1.length ≤ fuel ∧
      ((ir_loop residF solve fuel first prev sol).2.2 = true →
        stopPattern prev (ir_loop residF solve fuel first prev sol).2.1) ∧
      ((ir_loop residF solve fuel first prev sol).2.2 = false →
        noZIncrease prev (ir_loop residF solve fuel first prev sol).2.1) := by
  intro fuel
  induction fuel with
  | zero =>
    intro first prev sol
    refine ⟨by simp [ir_loop], ?_, ?_⟩
    · intro h
      simp [ir_loop] at h
    · intro _
      simp [ir_loop, noZIncrease]
  | succ f ih =>
    intro first prev sol
    by_cases hbr : gtPrev prev (inftyNorm (residF first sol).vz) = true
    · have hres : ir_loop residF solve (f + 1) first prev sol
          = (sol,
             [(max (inftyNorm (residF first sol).vx)
                 (max (inftyNorm (residF first sol).vy)
                   (inftyNorm (residF first sol).vz)),
               inftyNorm (residF first sol).vz)], true) := by
        simp only [ir_loop]
        rw [if_pos hbr]
      rw [hres]
      refine ⟨by simp, ?_, ?_⟩
      · intro _
        exact hbr
      · intro h
        simp at h
    · have hbr2 : gtPrev prev (inftyNorm (residF first sol).vz) = false :=
        Bool.eq_false_iff.mpr hbr
      obtain ⟨ih1, ih2, ih3⟩ := ih false (some (inftyNorm (residF first sol).vz))
        (vec3_sub sol (solve (residF first sol)))
      have hres : ir_loop residF solve (f + 1) first prev sol
          = ((ir_loop residF solve f false (some (inftyNorm (residF first sol).vz))
                (vec3_sub sol (solve (residF first sol)))).1,
             (max (inftyNorm (residF first sol).vx)
                 (max (inftyNorm (residF first sol).vy)
                   (inftyNorm (residF first sol).vz)),
               inftyNorm (residF first sol).vz)
              :: (ir_loop residF solve f false (some (inftyNorm (residF first sol).vz))
                (vec3_sub sol (solve (residF first sol)))).2.1,
             (ir_loop residF solve f false (some (inftyNorm (residF first sol).vz))
                (vec3_sub sol (solve (residF first sol)))).2.2) := by
        simp only [ir_loop]
        rw [if_neg (by rw [hbr2]; exact Bool.false_ne_true)]
      rw [hres]
      refine ⟨?_, ?_, ?_⟩
      · simpa using Nat.succ_le_succ ih1
      · intro h
        have hp := ih2 h
        cases hlist : (ir_loop residF solve f false
            (some (inftyNorm (residF first sol).vz))
            (vec3_sub sol (solve (residF first sol)))).2.1 with
        | nil =>
          rw [hlist] at hp
          exact absurd hp (by simp [stopPattern])
        | cons q rest =>
          rw [hlist] at hp
          exact ⟨hbr2, hp⟩
      · intro h
        exact ⟨hbr2, ih3 h⟩

/-- C2 amended: for every right-hand side, the iterative-refinement
wrapper enters at most `nb_iterative_refinement` passes, and it stops
early exactly when the Z-BLOCK residual norm `‖(K·sol − r)_z‖_∞`
STRICTLY INCREASES between two consecutive passes: on a break the
recorded z-norms end with that one strict increase, and when no break
occurs no pass's z-norm strictly exceeded its predecessor's. -/
theorem ldl_iter_solve_noalias_spec {n nEq nIn : ℕ} (H : Fin n → Fin n → ℚ)
    (A : Fin nEq → Fin n → ℚ) (Cact : Fin nIn → Fin n → ℚ)
    (rho muEq muIn : ℚ) (act : Fin nIn → Bool)
    (solve : Vec3 n nEq nIn → Vec3 n nEq nIn) (nbIR : ℕ) (rhs : Vec3 n nEq nIn) :
    (ldl_iter_solve_noalias H A Cact rho muEq muIn act solve nbIR rhs).2.1.length
        ≤ nbIR ∧
    ((ldl_iter_solve_noalias H A Cact rho muEq muIn act solve nbIR rhs).2.2 = true →
      stopPattern none
        (ldl_iter_solve_noalias H A Cact rho muEq muIn act solve nbIR rhs).2.1) ∧
    ((ldl_iter_solve_noalias H A Cact rho muEq muIn act solve nbIR rhs).2.2 = false →
      noZIncrease none
        (ldl_iter_solve_noalias H A Cact rho muEq muIn act solve nbIR rhs).2.1) :=
  ir_loop_spec (irErr H A Cact rho muEq muIn act rhs) solve nbIR true none
    ⟨fun _ => 0, fun _ => 0, fun _ => 0⟩

/-- Counterexample to C2 as stated.  First run (`K = diag(1,1)`, exact
solve, `r = 0`, `k = 2`): the full residual norm is `0` on both passes,
so it "fails to decrease" between the two consecutive passes, yet the
loop does NOT stop early (`break` needs a STRICT increase) and enters
both passes.  Second run (`K = diag(1,1)`, inexact solve
`(vx, vz) ↦ (0.8·vx, 3·vz)`, `r = (10, 1)`): the loop DOES stop early
after the second pass although the full residual norm strictly decreased
from `10` to `2` — the break is driven by the z-block norm (`1 → 2`)
alone, not by the full norm `‖K x − r‖_∞`. -/
theorem ldl_iter_solve_noalias_counterexample :
    ¬ ((0 : ℚ) < 0) ∧
    (ldl_iter_solve_noalias (fun _ _ : Fin 1 => (1 : ℚ))
        (fun (_ : Fin 0) (_ : Fin 1) => (0 : ℚ))
        (fun (_ : Fin 1) (_ : Fin 1) => (0 : ℚ)) 0 1000 10 (fun _ => false) id 2
        ⟨fun _ => 0, fun _ => 0, fun _ => 0⟩).2 = ([(0, 0), (0, 0)], false) ∧
    (2 : ℚ) < 10 ∧
    (ldl_iter_solve_noalias (fun _ _ : Fin 1 => (1 : ℚ))
        (fun (_ : Fin 0) (_ : Fin 1) => (0 : ℚ))
        (fun (_ : Fin 1) (_ : Fin 1) => (0 : ℚ)) 0 1000 10 (fun _ => false)
        (fun v => ⟨fun i => 4 / 5 * v.vx i, v.vy, fun i => 3 * v.vz i⟩) 2
        ⟨fun _ => 10, fun _ => 0, fun _ => 1⟩).2 = ([(10, 1), (2, 2)], true) := by
  refine ⟨by norm_num, ?_, by norm_num, ?_⟩
  · rw [ldl_iter_solve_noalias, show (2 : ℕ) = 1 + 1 from rfl]
    simp [ir_loop, gtPrev, irErr, inftyNorm, inftyNormL, List.ofFn_succ, mulVec,
      mulVecT, dotQ, vec3_sub]
  · rw [ldl_iter_solve_noalias, show (2 : ℕ) = 1 + 1 from rfl]
    norm_num [ir_loop, gtPrev, irErr, inftyNorm, inftyNormL, List.ofFn_succ, mulVec,
      mulVecT, dotQ, vec3_sub]

/-! ## KKT trailing-block slots, active-set bookkeeping and the factorization

State machine for the inequality slots `n + m_eq + i` of the KKT matrix
and the maintained LDLᵀ factorization, from `qp_solve`
(`refactorize`, the active-set sweep of
`primal_dual_newton_semi_smooth`, and the `mu_update` at the end of an
outer iteration) and from `rowmod.hpp` (`add_row`, `delete_row`).

Modelling granularity: per trailing slot `i` the state records
- `active i`        : `active_constraints[i]`;
- `kktNnzFull i`    : whether `kkt_active.nnz_per_col[n+m_eq+i]` is the
                      full column count (`true`) or `0` (`false`);
- `facOff i`, `facDiag i` : the off-diagonal column and diagonal value
  of slot `i` of the matrix represented by the factorization;
- `facMu i` (ghost) : the value of `mu_in` at the slot's last
  factorization write;
- `ldlColNnz i`     : `pldnz` at the slot's column of `L`.

Effects taken from the source:
- `add_row(ldl, …, idx, new_col = C_i column, diag = -1/mu_in)`
  (solver_sparse.hpp:1322, rowmod.hpp): asserts `pldnz[pos] == 1`,
  installs the column and diagonal;
- `delete_row(ldl, …, idx)` (rowmod.hpp): represents the slot as an
  empty column with diagonal `1` (step 2 sets `d_kk = 1`, the rank-1
  update cancels the column) and sets `pldnz[pos] = 1` (line 105);
- `refactorize()` (solver_sparse.hpp:969-1006): numeric factorization
  of `kkt_active` with diagonal `active ? -1/mu_in : 1`.

Modelled from the spec: the factorization kernel
(`factorize_symbolic_non_zeros` / `factorize_numeric`,
`sparse_ldlt::rank1_update` — not under `src/`) is a black box whose
contract (§4.3) is that the factorization represents `P K Pᵀ`; for a
slot whose KKT row/column is structurally empty, the corresponding `L`
column holds only the diagonal (`pldnz = 1`), and neither `add_row` nor
`delete_row` at another slot touches the `L` column of a structurally
empty slot (`delete_row` only edits columns containing the deleted row
index; `add_row` only edits columns in the elimination-tree reach of the
inserted `C` column, which has entries in primal rows only).  Fill-in
counts of non-empty columns are not determined at this granularity and
enter as the arbitrary function `fill` (the theorems hold for every
choice). -/

/-- Per-slot state of the KKT trailing block and the factorization. -/
structure KktState (nOff nIn : ℕ) where
  muEq : ℚ
  muIn : ℚ
  active : Fin nIn → Bool
  kktNnzFull : Fin nIn → Bool
  facOff : Fin nIn → Fin nOff → ℚ
  facDiag : Fin nIn → ℚ
  facMu : Fin nIn → ℚ
  ldlColNnz : Fin nIn → ℕ

/-- Operations the solver performs on this state between solves. -/
inductive KktOp (nIn : ℕ)
  | sweep (pred : Fin nIn → Bool) (fill : Fin nIn → ℕ)
  | muUpdateStep (newEq newIn : ℚ) (fill : Fin nIn → ℕ)

/-- The state after setup and the initial `refactorize()`: all
inequalities inactive, every trailing slot represented as an empty
column with diagonal `1`, every `L` slot column holding only its
diagonal. -/
def kkt_init (nOff nIn : ℕ) (muEq muIn : ℚ) : KktState nOff nIn :=
  { muEq := muEq, muIn := muIn
    active := fun _ => false
    kktNnzFull := fun _ => false
    facOff := fun _ _ => 0
    facDiag := fun _ => 1
    facMu := fun _ => muIn
    ldlColNnz := fun _ => 1 }

/-- `refactorize()`: rebuild the factorization from `kkt_active` (slot
structure per `kktNnzFull`) with diagonal `active ? -1/mu_in : 1`
(solver_sparse.hpp:987-989); a structurally empty slot column of `L`
gets `pldnz = 1`, other columns get an arbitrary fill-in count
`fill i + 1`. -/
def refactorize_model {nOff nIn : ℕ} (Crow : Fin nIn → Fin nOff → ℚ)
    (fill : Fin nIn → ℕ) (st : KktState nOff nIn) : KktState nOff nIn :=
  { st with
    facOff := fun i => if st.kktNnzFull i then Crow i else fun _ => 0
    facDiag := fun i => if st.active i then -1 / st.muIn else 1
    facMu := fun _ => st.muIn
    ldlColNnz := fun i => if st.kktNnzFull i then fill i + 1 else 1 }

/-- One index of the active-set sweep (solver_sparse.hpp:1289-1334):
activate via `add_row` when predicted active but currently inactive
(checking `add_row`'s assertion `pldnz[pos] == 1`), deactivate via
`delete_row` when predicted inactive but currently active, otherwise do
nothing.  The boolean accumulates the assertion checks. -/
def active_set_toggle {nOff nIn : ℕ} (Crow : Fin nIn → Fin nOff → ℚ)
    (pred : Fin nIn → Bool) (fill : Fin nIn → ℕ)
    (s : KktState nOff nIn × Bool) (i : Fin nIn) : KktState nOff nIn × Bool :=
  let st := s.1
  if pred i = true ∧ st.active i = false then
    ({ st with
        active := Function.update st.active i true
        kktNnzFull := Function.update st.kktNnzFull i true
        facOff := Function.update st.facOff i (Crow i)
        facDiag := Function.update st.facDiag i (-1 / st.muIn)
        facMu := Function.update st.facMu i st.muIn
        ldlColNnz := Function.update st.ldlColNnz i (fill i + 1) },
      s.2 && decide (st.ldlColNnz i = 1))
  else if pred i = false ∧ st.active i = true then
    ({ st with
        active := Function.update st.active i false
        kktNnzFull := Function.update st.kktNnzFull i false
        facOff := Function.update st.facOff i (fun _ => 0)
        facDiag := Function.update st.facDiag i 1
        facMu := Function.update st.facMu i st.muIn
        ldlColNnz := Function.update st.ldlColNnz i 1 },
      s.2)
  else s

/-- One solver operation on the slot state.  A `sweep` applies the
toggles for all indices in order and refactorizes when anything changed
(solver_sparse.hpp:1335-1337); `muUpdateStep` models the end of an outer
iteration (solver_sparse.hpp:1556-1563): when a penalty changed,
`mu_update()` refactorizes — with the OLD `mu` values, since the
assignment `mu_eq = new_bcl_mu_eq; mu_in = new_bcl_mu_in` happens only
afterwards — and then the penalties are assigned. -/
def kkt_step {nOff nIn : ℕ} (Crow : Fin nIn → Fin nOff → ℚ)
    (s : KktState nOff nIn × Bool) (op : KktOp nIn) : KktState nOff nIn × Bool :=
  match op with
  | .sweep pred fill =>
    let changed := decide (∃ i, pred i ≠ s.1.active i)
    let s2 := (List.finRange nIn).foldl (active_set_toggle Crow pred fill) s
    if changed then (refactorize_model Crow fill s2.1, s2.2) else s2
  | .muUpdateStep newEq newIn fill =>
    if s.1.muIn ≠ newIn ∨ s.1.muEq ≠ newEq then
      let st := refactorize_model Crow fill s.1
      ({ st with muEq := newEq, muIn := newIn }, s.2)
    else s

/-- Run a sequence of solver operations from the initial state; the
boolean conjoins all `add_row` assertion checks encountered. -/
def kkt_run {nOff nIn : ℕ} (Crow : Fin nIn → Fin nOff → ℚ) (muEq muIn : ℚ)
    (ops : List (KktOp nIn)) : KktState nOff nIn × Bool :=
  ops.foldl (kkt_step Crow) (kkt_init nOff nIn muEq muIn, true)

/-- The slot invariant maintained between solver operations:
`kkt_active`'s per-column count mirrors `active_constraints`; an active
slot carries the `i`-th row of `C` and the diagonal `-1/μ` for the
`mu_in` value `facMu i` recorded at its last factorization write; an
inactive slot carries an empty column and diagonal `1`, and its `L`
column holds only the diagonal. -/
def KktInvariant {nOff nIn : ℕ} (Crow : Fin nIn → Fin nOff → ℚ)
    (st : KktState nOff nIn) : Prop :=
  ∀ i : Fin nIn,
    st.kktNnzFull i = st.active i ∧
    (st.active i = true → st.facOff i = Crow i ∧ st.facDiag i = -1 / st.facMu i) ∧
    (st.active i = false →
      st.facOff i = (fun _ => 0) ∧ st.facDiag i = 1 ∧ st.ldlColNnz i = 1)

/-- C8's wording, for comparison: the invariant with the CURRENT `mu_in`
in the active slots' diagonal. -/
def KktClaimInvariant {nOff nIn : ℕ} (Crow : Fin nIn → Fin nOff → ℚ)
    (st : KktState nOff nIn) : Prop :=
  ∀ i : Fin nIn,
    st.kktNnzFull i = st.active i ∧
    (st.active i = true → st.facOff i = Crow i ∧ st.facDiag i = -1 / st.muIn) ∧
    (st.active i = false → st.facOff i = (fun _ => 0) ∧ st.facDiag i = 1)

theorem kkt_init_invariant {nOff nIn : ℕ} (Crow : Fin nIn → Fin nOff → ℚ)
    (muEq muIn : ℚ) : KktInvariant Crow (kkt_init nOff nIn muEq muIn) := by
  intro i
  refine ⟨rfl, ?_, ?_⟩
  · intro h
    simp [kkt_init] at h
  · intro _
    exact ⟨rfl, rfl, rfl⟩

theorem refactorize_model_invariant {nOff nIn : ℕ} (Crow : Fin nIn → Fin nOff → ℚ)
    (fill : Fin nIn → ℕ) (st : KktState nOff nIn)
    (h : ∀ i, st.kktNnzFull i = st.active i) :
    KktInvariant Crow (refactorize_model Crow fill st) := by
  intro i
  have hk := h i
  have hact : (refactorize_model Crow fill st).active i = st.active i := rfl
  refine ⟨hk, ?_, ?_⟩
  · intro ha
    rw [hact] at ha
    constructor
    · show (if st.kktNnzFull i then Crow i else fun _ => 0) = Crow i
      rw [hk, ha]
      simp
    · show (if st.active i then -1 / st.muIn else 1)
        = -1 / (refactorize_model Crow fill st).facMu i
      rw [ha]
      simp [refactorize_model]
  · intro ha
    rw [hact] at ha
    refine ⟨?_, ?_, ?_⟩
    · show (if st.kktNnzFull i then Crow i else fun _ => 0) = fun _ => 0
      rw [hk, ha]
      simp
    · show (if st.active i then -1 / st.muIn else 1) = 1
      rw [ha]
      simp
    · show (if st.kktNnzFull i then fill i + 1 else 1) = 1
      rw [hk, ha]
      simp

theorem active_set_toggle_invariant {nOff nIn : ℕ} (Crow : Fin nIn → Fin nOff → ℚ)
    (pred : Fin nIn → Bool) (fill : Fin nIn → ℕ)
    (s : KktState nOff nIn × Bool) (i : Fin nIn)
    (h : KktInvariant Crow s.1 ∧ s.2 = true) :
    KktInvariant Crow (active_set_toggle Crow pred fill s i).1 ∧
      (active_set_toggle Crow pred fill s i).2 = true := by
  obtain ⟨hinv, hok⟩ := h
  rw [active_set_toggle]
  by_cases h1 : pred i = true ∧ s.1.active i = false
  · rw [if_pos h1]
    constructor
    · intro j
      dsimp only
      by_cases hj : j = i
      · subst hj
        simp [Function.update_same]
      · simp only [Function.update_noteq hj]
        exact hinv j
    · have hnnz : s.1.ldlColNnz i = 1 := ((hinv i).2.2 h1.2).2.2
      dsimp only
      rw [hok, hnnz]
      simp
  · rw [if_neg h1]
    by_cases h2 : pred i = false ∧ s.1.active i = true
    · rw [if_pos h2]
      refine ⟨?_, hok⟩
      intro j
      dsimp only
      by_cases hj : j = i
      · subst hj
        simp [Function.update_same]
      · simp only [Function.update_noteq hj]
        exact hinv j
    · rw [if_neg h2]
      exact ⟨hinv, hok⟩

theorem foldl_toggle_invariant {nOff nIn : ℕ} (Crow : Fin nIn → Fin nOff → ℚ)
    (pred : Fin nIn → Bool) (fill : Fin nIn → ℕ) :
    ∀ (l : List (Fin nIn)) (s : KktState nOff nIn × Bool),
      KktInvariant Crow s.1 ∧ s.2 = true →
      KktInvariant Crow (l.foldl (active_set_toggle Crow pred fill) s).1 ∧
        (l.foldl (active_set_toggle Crow pred fill) s).2 = true := by
  intro l
  induction l with
  | nil => intro s h; exact h
  | cons a t ih =>
    intro s h
    exact ih _ (active_set_toggle_invariant Crow pred fill s a h)

theorem kkt_step_invariant {nOff nIn : ℕ} (Crow : Fin nIn → Fin nOff → ℚ)
    (s : KktState nOff nIn × Bool) (op : KktOp nIn)
    (h : KktInvariant Crow s.1 ∧ s.2 = true) :
    KktInvariant Crow (kkt_step Crow s op).1 ∧ (kkt_step Crow s op).2 = true := by
  cases op with
  | sweep pred fill =>
    have hfold := foldl_toggle_invariant Crow pred fill (List.finRange nIn) s h
    by_cases hch : (∃ i, pred i ≠ s.1.active i)
    · have hstep : kkt_step Crow s (.sweep pred fill)
          = (refactorize_model Crow fill
              ((List.finRange nIn).foldl (active_set_toggle Crow pred fill) s).1,
             ((List.finRange nIn).foldl (active_set_toggle Crow pred fill) s).2) := by
        rw [kkt_step]
        simp only [decide_eq_true hch, if_true]
      rw [hstep]
      exact ⟨refactorize_model_invariant Crow fill _ (fun i => (hfold.1 i).1), hfold.2⟩
    · have hstep : kkt_step Crow s (.sweep pred fill)
          = (List.finRange nIn).foldl (active_set_toggle Crow pred fill) s := by
        rw [kkt_step]
        simp only [decide_eq_false hch]
        simp
      rw [hstep]
      exact hfold
  | muUpdateStep newEq newIn fill =>
    rw [kkt_step]
    by_cases hch : s.1.muIn ≠ newIn ∨ s.1.muEq ≠ newEq
    · rw [if_pos hch]
      refine ⟨?_, h.2⟩
      intro i
      exact refactorize_model_invariant Crow fill s.1 (fun j => (h.1 j).1) i
    · rw [if_neg hch]
      exact h

/-- C8 amended / C10: starting from setup, after every sequence of
solver operations (active-set sweeps with arbitrary predicted activity,
μ updates), each KKT trailing slot carries either the `i`-th row of `C`
with diagonal `-1/μ_in` for the `μ_in` recorded at the slot's last
factorization write, or an empty column with diagonal `1` and an `L`
column holding only the diagonal; and `kkt_active`'s column counts
mirror `active_constraints`. -/
theorem kkt_run_invariant {nOff nIn : ℕ} (Crow : Fin nIn → Fin nOff → ℚ)
    (muEq muIn : ℚ) (ops : List (KktOp nIn)) :
    KktInvariant Crow (kkt_run Crow muEq muIn ops).1 := by
  suffices h : KktInvariant Crow (kkt_run Crow muEq muIn ops).1 ∧
      (kkt_run Crow muEq muIn ops).2 = true from h.1
  rw [kkt_run]
  generalize hstart : ((kkt_init nOff nIn muEq muIn : KktState nOff nIn), true) = s0
  have h0 : KktInvariant Crow s0.1 ∧ s0.2 = true := by
    rw [← hstart]
    exact ⟨kkt_init_invariant Crow muEq muIn, rfl⟩
  clear hstart
  induction ops generalizing s0 with
  | nil => exact h0
  | cons op t ih =>
    exact ih _ (kkt_step_invariant Crow s0 op h0)

/-- C10: the driver toggles a constraint only when its predicted
activity differs from `active_constraints[i]`, so `add_row` is only ever
invoked on a slot whose `L` column currently holds just its diagonal
(`pldnz == 1`), and `delete_row` only on a previously filled slot: over
every operation sequence, every `add_row` assertion check passes. -/
theorem add_row_assert_never_fires {nOff nIn : ℕ} (Crow : Fin nIn → Fin nOff → ℚ)
    (muEq muIn : ℚ) (ops : List (KktOp nIn)) :
    (kkt_run Crow muEq muIn ops).2 = true := by
  suffices h : KktInvariant Crow (kkt_run Crow muEq muIn ops).1 ∧
      (kkt_run Crow muEq muIn ops).2 = true from h.2
  rw [kkt_run]
  generalize hstart : ((kkt_init nOff nIn muEq muIn : KktState nOff nIn), true) = s0
  have h0 : KktInvariant Crow s0.1 ∧ s0.2 = true := by
    rw [← hstart]
    exact ⟨kkt_init_invariant Crow muEq muIn, rfl⟩
  clear hstart
  induction ops generalizing s0 with
  | nil => exact h0
  | cons op t ih =>
    exact ih _ (kkt_step_invariant Crow s0 op h0)

/-- Counterexample to C8 as stated: activate the single inequality
(active-set sweep), then let the BCL update change `μ_in` from `10` to
`100`.  `mu_update()` refactorizes BEFORE the new `μ` is assigned
(solver_sparse.hpp:1556-1563), so between solver operations the
factorization's slot diagonal is still `-1/10` while the current `μ_in`
is `100`: the slot does not carry `-μ_in⁻¹ = -1/100`, refuting the
claimed invariant. -/
theorem kkt_claim_invariant_counterexample :
    (kkt_run (fun _ _ : Fin 1 => (1 : ℚ)) 1000 10
        [KktOp.sweep (fun _ => true) (fun _ => 0),
         KktOp.muUpdateStep 1000 100 (fun _ => 0)]).1.active 0 = true ∧
    (kkt_run (fun _ _ : Fin 1 => (1 : ℚ)) 1000 10
        [KktOp.sweep (fun _ => true) (fun _ => 0),
         KktOp.muUpdateStep 1000 100 (fun _ => 0)]).1.facDiag 0 = -1 / 10 ∧
    (kkt_run (fun _ _ : Fin 1 => (1 : ℚ)) 1000 10
        [KktOp.sweep (fun _ => true) (fun _ => 0),
         KktOp.muUpdateStep 1000 100 (fun _ => 0)]).1.muIn = 100 ∧
    ¬ KktClaimInvariant (fun _ _ : Fin 1 => (1 : ℚ))
        (kkt_run (fun _ _ : Fin 1 => (1 : ℚ)) 1000 10
          [KktOp.sweep (fun _ => true) (fun _ => 0),
           KktOp.muUpdateStep 1000 100 (fun _ => 0)]).1 := by
  have hrun : (kkt_run (fun _ _ : Fin 1 => (1 : ℚ)) 1000 10
        [KktOp.sweep (fun _ => true) (fun _ => 0),
         KktOp.muUpdateStep 1000 100 (fun _ => 0)]).1.active 0 = true ∧
      (kkt_run (fun _ _ : Fin 1 => (1 : ℚ)) 1000 10
        [KktOp.sweep (fun _ => true) (fun _ => 0),
         KktOp.muUpdateStep 1000 100 (fun _ => 0)]).1.facDiag 0 = -1 / 10 ∧
      (kkt_run (fun _ _ : Fin 1 => (1 : ℚ)) 1000 10
        [KktOp.sweep (fun _ => true) (fun _ => 0),
         KktOp.muUpdateStep 1000 100 (fun _ => 0)]).1.muIn = 100 := by
    rw [kkt_run]
    norm_num [kkt_step, kkt_init, active_set_toggle, refactorize_model,
      List.finRange_succ, List.finRange_zero, Fin.exists_fin_one,
      Function.update_same]
  refine ⟨hrun.1, hrun.2.1, hrun.2.2, ?_⟩
  intro hclaim
  have hd := (hclaim 0).2.1 hrun.1
  rw [hrun.2.1, hrun.2.2] at hd
  have : (-1 / 10 : ℚ) ≠ -1 / 100 := by norm_num
  exact this hd.2

/-! ## Outer loop: convergence test and KKT residual bound on termination

From `qp_solve` in `solver_sparse.hpp`: the lambdas
`unscaled_primal_residual`, `unscaled_dual_residual`,
`is_primal_feasible`, `is_dual_feasible` and the outer `for` loop with
its two `break` statements (before and after the inner solver).

The loop works on the scaled data: `H_scaled` etc. (produced by
`precond.scale_qp_in_place`) together with the equilibration state
(`delta`, `c`) and the original unscaled `b`, `l`, `u`, `g` (used for
the reference norms `primal_feasibility_rhs_1_*`,
`dual_feasibility_rhs_2`, and subtracted after unscaling).  The Ruiz
scaling relations `H_scaled = c·D H D`, `Aᵀ_scaled = D Aᵀ E_eq`,
`Cᵀ_scaled = D Cᵀ E_in`, `g_scaled = c·D g` (accumulated over the
rounds of `ruiz_scale_qp_in_place`) enter the main theorem as
hypotheses. -/

/-- The solver iterates `(x, y, z)` (scaled space). -/
structure Iterates (n nEq nIn : ℕ) where
  x : Fin n → ℚ
  y : Fin nEq → ℚ
  z : Fin nIn → ℚ

/-- The data `qp_solve` works on: scaled matrices/vectors, original
unscaled vectors for the reference norms, the equilibration state and
the tolerances. -/
structure QpData (n nEq nIn : ℕ) where
  Hs : Fin n → Fin n → ℚ
  gs : Fin n → ℚ
  As : Fin nEq → Fin n → ℚ
  Cs : Fin nIn → Fin n → ℚ
  bu : Fin nEq → ℚ
  lu : Fin nIn → ℚ
  uu : Fin nIn → ℚ
  gu : Fin n → ℚ
  delta : ℕ → ℚ
  c : ℚ
  epsAbs : ℚ
  epsRel : ℚ

/-- `unscaled_primal_residual`, equality part before subtracting `b`:
`A_scaled · x` followed by `unscale_primal_residual_in_place_eq`
(division by `delta.middleRows(n, n_eq)`).  Its norm is
`primal_feasibility_eq_rhs_0`. -/
def prEqU {n nEq nIn : ℕ} (d : QpData n nEq nIn) (s : Iterates n nEq nIn) :
    Fin nEq → ℚ :=
  fun i => mulVec d.As s.x i / d.delta (n + i.val)

/-- `unscaled_primal_residual`, inequality part: `C_scaled · x` followed
by `unscale_primal_residual_in_place_in` (division by
`delta.tail(n_in)`).  Its norm is `primal_feasibility_in_rhs_0`. -/
def prInU {n nEq nIn : ℕ} (d : QpData n nEq nIn) (s : Iterates n nEq nIn) :
    Fin nIn → ℚ :=
  fun i => mulVec d.Cs s.x i / d.delta (n + nEq + i.val)

/-- `primal_feasibility_lhs`: the max of `‖A x − b‖_∞` and
`‖[Cx − u]⁺ + [Cx − l]⁻‖_∞`, both unscaled (`b`, `l`, `u` are the
original `qp.b`, `qp.l`, `qp.u`). -/
def primal_lhs {n nEq nIn : ℕ} (d : QpData n nEq nIn) (s : Iterates n nEq nIn) : ℚ :=
  max (inftyNorm (fun i => prEqU d s i - d.bu i))
    (inftyNorm (fun i =>
      posPart (fun k => prInU d s k - d.uu k) i +
      negPart (fun k => prInU d s k - d.lu k) i))

/-- The five reference norms of `is_primal_feasible`, combined by
`std::max`. -/
def maxPrimalRef {n nEq nIn : ℕ} (d : QpData n nEq nIn) (s : Iterates n nEq nIn) : ℚ :=
  max (max (max (max (inftyNorm (prEqU d s)) (inftyNorm (prInU d s)))
      (inftyNorm d.bu)) (inftyNorm d.lu)) (inftyNorm d.uu)

/-- `is_primal_feasible`: `rhs_pri` starts at `eps_abs` and the relative
term is added only when `eps_rel != 0`. -/
def is_primal_feasible {n nEq nIn : ℕ} (d : QpData n nEq nIn)
    (s : Iterates n nEq nIn) : Bool :=
  decide (primal_lhs d s ≤
    (if d.epsRel ≠ 0 then d.epsAbs + d.epsRel * maxPrimalRef d s else d.epsAbs))

/-- `unscaled_dual_residual`: `g_scaled + H_scaled x + A_scaledᵀ y +
C_scaledᵀ z` followed by `unscale_dual_residual_in_place` (division by
`delta.head(n) * c`). -/
def dualVecU {n nEq nIn : ℕ} (d : QpData n nEq nIn) (s : Iterates n nEq nIn) :
    Fin n → ℚ :=
  fun j => (d.gs j + mulVec d.Hs s.x j + mulVecT d.As s.y j + mulVecT d.Cs s.z j) /
    (d.delta j.val * d.c)

/-- `dual_feasibility_lhs`. -/
def dual_lhs {n nEq nIn : ℕ} (d : QpData n nEq nIn) (s : Iterates n nEq nIn) : ℚ :=
  inftyNorm (dualVecU d s)

/-- The four reference norms of `is_dual_feasible` (`‖Hx‖`, `‖Aᵀy‖`,
`‖g‖`, `‖Cᵀz‖`, the first, second and fourth unscaled through
`unscale_dual_residual_in_place`), combined by `std::max`. -/
def maxDualRef {n nEq nIn : ℕ} (d : QpData n nEq nIn) (s : Iterates n nEq nIn) : ℚ :=
  max (max (max
      (inftyNorm (fun j : Fin n => mulVec d.Hs s.x j / (d.delta j.val * d.c)))
      (inftyNorm (fun j : Fin n => mulVecT d.As s.y j / (d.delta j.val * d.c))))
    (inftyNorm d.gu))
    (inftyNorm (fun j : Fin n => mulVecT d.Cs s.z j / (d.delta j.val * d.c)))

/-- `is_dual_feasible`. -/
def is_dual_feasible {n nEq nIn : ℕ} (d : QpData n nEq nIn)
    (s : Iterates n nEq nIn) : Bool :=
  decide (dual_lhs d s ≤
    (if d.epsRel ≠ 0 then d.epsAbs + d.epsRel * maxDualRef d s else d.epsAbs))

/-- The convergence test guarding both `break` statements of the outer
loop. -/
def convergence_test {n nEq nIn : ℕ} (d : QpData n nEq nIn)
    (s : Iterates n nEq nIn) : Bool :=
  is_primal_feasible d s && is_dual_feasible d s

/-- The outer loop of `qp_solve`: check convergence (break), run the
inner solver, check convergence again (break), apply the BCL / cold
reset / μ update tail, repeat up to `max_iter` times.  The inner solver
(with the snapshots and residual shifts preceding it) and the
post-check tail are embedded as arbitrary state transformers `inner`
and `rest`.  Returns `true` iff the loop exited through a convergence
`break` (status solved), together with the iterates at exit. -/
def qp_solve_outer {n nEq nIn : ℕ} (d : QpData n nEq nIn)
    (inner rest : Iterates n nEq nIn → Iterates n nEq nIn) :
    ℕ → Iterates n nEq nIn → Bool × Iterates n nEq nIn
  | 0, s => (false, s)
  | fuel + 1, s =>
    if convergence_test d s then (true, s)
    else
      let s1 := inner s
      if convergence_test d s1 then (true, s1)
      else qp_solve_outer d inner rest fuel (rest s1)

/-- If the outer loop reports solved, the convergence test holds at the
returned iterates. -/
theorem qp_solve_outer_exit {n nEq nIn : ℕ} (d : QpData n nEq nIn)
    (inner rest : Iterates n nEq nIn → Iterates n nEq nIn) :
    ∀ (fuel : ℕ) (s : Iterates n nEq nIn),
      (qp_solve_outer d inner rest fuel s).1 = true →
      convergence_test d (qp_solve_outer d inner rest fuel s).2 = true := by
  intro fuel
  induction fuel with
  | zero =>
    intro s h
    simp [qp_solve_outer] at h
  | succ f ih =>
    intro s h
    by_cases h1 : convergence_test d s = true
    · have : qp_solve_outer d inner rest (f + 1) s = (true, s) := by
        simp [qp_solve_outer, h1]
      rw [this]
      exact h1
    · by_cases h2 : convergence_test d (inner s) = true
      · have : qp_solve_outer d inner rest (f + 1) s = (true, inner s) := by
          simp [qp_solve_outer, h1, h2]
        rw [this]
        exact h2
      · have heq : qp_solve_outer d inner rest (f + 1) s
            = qp_solve_outer d inner rest f (rest (inner s)) := by
          simp [qp_solve_outer, h1, h2]
        rw [heq] at h ⊢
        exact ih _ h

/-- Under the Ruiz scaling relation `Aᵀ_scaled = D Aᵀ E_eq`, the
computed unscaled equality residual equals `A · x_unscaled` in exact
arithmetic. -/
theorem prEqU_unscaled {n nEq nIn : ℕ} (d : QpData n nEq nIn) (s : Iterates n nEq nIn)
    (A : Fin nEq → Fin n → ℚ)
    (hA : ∀ i j, d.As i j = d.delta (n + i.val) * A i j * d.delta j.val)
    (hδ : ∀ k, d.delta k ≠ 0) :
    ∀ i, prEqU d s i = mulVec A (unscale_primal_in_place d.delta s.x) i := by
  intro i
  have hsum : mulVec d.As s.x i
      = d.delta (n + i.val) * mulVec A (unscale_primal_in_place d.delta s.x) i := by
    simp only [mulVec, dotQ, unscale_primal_in_place]
    rw [Finset.mul_sum]
    refine Finset.sum_congr rfl fun j _ => ?_
    rw [hA i j]
    ring
  show mulVec d.As s.x i / d.delta (n + i.val) = _
  rw [hsum, mul_div_cancel_left₀ _ (hδ (n + i.val))]

/-- Under the Ruiz scaling relation `Cᵀ_scaled = D Cᵀ E_in`, the
computed unscaled inequality residual equals `C · x_unscaled`. -/
theorem prInU_unscaled {n nEq nIn : ℕ} (d : QpData n nEq nIn) (s : Iterates n nEq nIn)
    (C : Fin nIn → Fin n → ℚ)
    (hC : ∀ i j, d.Cs i j = d.delta (n + nEq + i.val) * C i j * d.delta j.val)
    (hδ : ∀ k, d.delta k ≠ 0) :
    ∀ i, prInU d s i = mulVec C (unscale_primal_in_place d.delta s.x) i := by
  intro i
  have hsum : mulVec d.Cs s.x i
      = d.delta (n + nEq + i.val) * mulVec C (unscale_primal_in_place d.delta s.x) i := by
    simp only [mulVec, dotQ, unscale_primal_in_place]
    rw [Finset.mul_sum]
    refine Finset.sum_congr rfl fun j _ => ?_
    rw [hC i j]
    ring
  show mulVec d.Cs s.x i / d.delta (n + nEq + i.val) = _
  rw [hsum, mul_div_cancel_left₀ _ (hδ (n + nEq + i.val))]

/-- Under the Ruiz scaling relations for `H`, `A`, `C` and `g`, the
computed unscaled dual residual equals
`g + H·x_u + Aᵀ·y_u + Cᵀ·z_u` at the unscaled iterates. -/
theorem dualVecU_unscaled {n nEq nIn : ℕ} (d : QpData n nEq nIn) (s : Iterates n nEq nIn)
    (H : Fin n → Fin n → ℚ) (A : Fin nEq → Fin n → ℚ) (C : Fin nIn → Fin n → ℚ)
    (hH : ∀ i j, d.Hs i j = d.c * (d.delta i.val * H i j * d.delta j.val))
    (hA : ∀ i j, d.As i j = d.delta (n + i.val) * A i j * d.delta j.val)
    (hC : ∀ i j, d.Cs i j = d.delta (n + nEq + i.val) * C i j * d.delta j.val)
    (hg : ∀ j, d.gs j = d.c * (d.delta j.val * d.gu j))
    (hδ : ∀ k, d.delta k ≠ 0) (hc : d.c ≠ 0) :
    ∀ j, dualVecU d s j
      = d.gu j + mulVec H (unscale_primal_in_place d.delta s.x) j
          + mulVecT A (unscale_dual_in_place_eq d.delta d.c n s.y) j
          + mulVecT C (unscale_dual_in_place_in d.delta d.c (n + nEq) s.z) j := by
  intro j
  have hHsum : mulVec d.Hs s.x j
      = d.delta j.val * d.c * mulVec H (unscale_primal_in_place d.delta s.x) j := by
    simp only [mulVec, dotQ, unscale_primal_in_place]
    rw [Finset.mul_sum]
    refine Finset.sum_congr rfl fun i _ => ?_
    rw [hH j i]
    ring
  have hAsum : mulVecT d.As s.y j
      = d.delta j.val * d.c * mulVecT A (unscale_dual_in_place_eq d.delta d.c n s.y) j := by
    simp only [mulVecT, dotQ, unscale_dual_in_place_eq]
    rw [Finset.mul_sum]
    refine Finset.sum_congr rfl fun i _ => ?_
    rw [hA i j]
    field_simp
    ring
  have hCsum : mulVecT d.Cs s.z j
      = d.delta j.val * d.c
          * mulVecT C (unscale_dual_in_place_in d.delta d.c (n + nEq) s.z) j := by
    simp only [mulVecT, dotQ, unscale_dual_in_place_in]
    rw [Finset.mul_sum]
    refine Finset.sum_congr rfl fun i _ => ?_
    rw [hC i j]
    field_simp
    ring
  show (d.gs j + mulVec d.Hs s.x j + mulVecT d.As s.y j + mulVecT d.Cs s.z j) /
      (d.delta j.val * d.c) = _
  rw [hg j, hHsum, hAsum, hCsum]
  have hd := hδ j.val
  field_simp
  ring

/-- A passed `is_primal_feasible` test bounds `primal_feasibility_lhs`
by `eps_abs + eps_rel · maxPrimalRef` (also when `eps_rel = 0`, where
the relative term vanishes). -/
theorem is_primal_feasible_bound {n nEq nIn : ℕ} (d : QpData n nEq nIn)
    (s : Iterates n nEq nIn) (h : is_primal_feasible d s = true) :
    primal_lhs d s ≤ d.epsAbs + d.epsRel * maxPrimalRef d s := by
  have hle := of_decide_eq_true h
  by_cases he : d.epsRel ≠ 0
  · rwa [if_pos he] at hle
  · push_neg at he
    rw [if_neg (by simp [he])] at hle
    rw [he, zero_mul, add_zero]
    exact hle

/-- A passed `is_dual_feasible` test bounds `dual_feasibility_lhs` by
`eps_abs + eps_rel · maxDualRef`. -/
theorem is_dual_feasible_bound {n nEq nIn : ℕ} (d : QpData n nEq nIn)
    (s : Iterates n nEq nIn) (h : is_dual_feasible d s = true) :
    dual_lhs d s ≤ d.epsAbs + d.epsRel * maxDualRef d s := by
  have hle := of_decide_eq_true h
  by_cases he : d.epsRel ≠ 0
  · rwa [if_pos he] at hle
  · push_neg at he
    rw [if_neg (by simp [he])] at hle
    rw [he, zero_mul, add_zero]
    exact hle

/-- C1: whenever `qp_solve` exits its outer loop through the
convergence test (status solved rather than `max_iter` exhaustion),
then — with `(x, y, z)` the returned iterates unscaled through
`unscale_primal_in_place` / `unscale_dual_in_place_eq` /
`unscale_dual_in_place_in`, and under the Ruiz scaling relations
relating the scaled data to the unscaled `H`, `A`, `C`, `g` — the three
unscaled KKT residual norms `‖A x − b‖_∞`,
`‖[Cx − u]⁺ + [Cx − l]⁻‖_∞` and `‖H x + g + Aᵀ y + Cᵀ z‖_∞` are all at
most `eps_abs + eps_rel ·` (the matching reference norms used by
`is_primal_feasible` resp. `is_dual_feasible`). -/
theorem qp_solve_kkt_residual_bound {n nEq nIn : ℕ} (d : QpData n nEq nIn)
    (inner rest : Iterates n nEq nIn → Iterates n nEq nIn)
    (fuel : ℕ) (s0 : Iterates n nEq nIn)
    (H : Fin n → Fin n → ℚ) (A : Fin nEq → Fin n → ℚ) (C : Fin nIn → Fin n → ℚ)
    (hH : ∀ i j, d.Hs i j = d.c * (d.delta i.val * H i j * d.delta j.val))
    (hA : ∀ i j, d.As i j = d.delta (n + i.val) * A i j * d.delta j.val)
    (hC : ∀ i j, d.Cs i j = d.delta (n + nEq + i.val) * C i j * d.delta j.val)
    (hg : ∀ j, d.gs j = d.c * (d.delta j.val * d.gu j))
    (hδ : ∀ k, d.delta k ≠ 0) (hc : d.c ≠ 0)
    (hsolved : (qp_solve_outer d inner rest fuel s0).1 = true) :
    inftyNorm (fun i =>
        mulVec A (unscale_primal_in_place d.delta
          (qp_solve_outer d inner rest fuel s0).2.x) i - d.bu i)
      ≤ d.epsAbs + d.epsRel * maxPrimalRef d (qp_solve_outer d inner rest fuel s0).2 ∧
    inftyNorm (fun i =>
        posPart (fun k => mulVec C (unscale_primal_in_place d.delta
          (qp_solve_outer d inner rest fuel s0).2.x) k - d.uu k) i +
        negPart (fun k => mulVec C (unscale_primal_in_place d.delta
          (qp_solve_outer d inner rest fuel s0).2.x) k - d.lu k) i)
      ≤ d.epsAbs + d.epsRel * maxPrimalRef d (qp_solve_outer d inner rest fuel s0).2 ∧
    inftyNorm (fun j =>
        d.gu j + mulVec H (unscale_primal_in_place d.delta
          (qp_solve_outer d inner rest fuel s0).2.x) j
        + mulVecT A (unscale_dual_in_place_eq d.delta d.c n
          (qp_solve_outer d inner rest fuel s0).2.y) j
        + mulVecT C (unscale_dual_in_place_in d.delta d.c (n + nEq)
          (qp_solve_outer d inner rest fuel s0).2.z) j)
      ≤ d.epsAbs + d.epsRel * maxDualRef d (qp_solve_outer d inner rest fuel s0).2 := by
  have hconv := qp_solve_outer_exit d inner rest fuel s0 hsolved
  rw [convergence_test, Bool.and_eq_true] at hconv
  obtain ⟨hp, hd2⟩ := hconv
  have hpb := is_primal_feasible_bound d _ hp
  have hdb := is_dual_feasible_bound d _ hd2
  rw [primal_lhs, max_le_iff] at hpb
  refine ⟨?_, ?_, ?_⟩
  · have heq : (fun i => prEqU d (qp_solve_outer d inner rest fuel s0).2 i - d.bu i)
        = (fun i => mulVec A (unscale_primal_in_place d.delta
            (qp_solve_outer d inner rest fuel s0).2.x) i - d.bu i) := by
      funext i
      rw [prEqU_unscaled d _ A hA hδ i]
    rw [← heq]
    exact hpb.1
  · have heq : (fun i =>
        posPart (fun k => prInU d (qp_solve_outer d inner rest fuel s0).2 k - d.uu k) i +
        negPart (fun k => prInU d (qp_solve_outer d inner rest fuel s0).2 k - d.lu k) i)
        = (fun i =>
        posPart (fun k => mulVec C (unscale_primal_in_place d.delta
          (qp_solve_outer d inner rest fuel s0).2.x) k - d.uu k) i +
        negPart (fun k => mulVec C (unscale_primal_in_place d.delta
          (qp_solve_outer d inner rest fuel s0).2.x) k - d.lu k) i) := by
      have hfun : (fun k => prInU d (qp_solve_outer d inner rest fuel s0).2 k)
          = fun k => mulVec C (unscale_primal_in_place d.delta
              (qp_solve_outer d inner rest fuel s0).2.x) k := by
        funext k
        rw [prInU_unscaled d _ C hC hδ k]
      funext i
      rw [show (fun k => prInU d (qp_solve_outer d inner rest fuel s0).2 k - d.uu k)
            = fun k => mulVec C (unscale_primal_in_place d.delta
                (qp_solve_outer d inner rest fuel s0).2.x) k - d.uu k from
          funext fun k => by rw [prInU_unscaled d _ C hC hδ k],
        show (fun k => prInU d (qp_solve_outer d inner rest fuel s0).2 k - d.lu k)
            = fun k => mulVec C (unscale_primal_in_place d.delta
                (qp_solve_outer d inner rest fuel s0).2.x) k - d.lu k from
          funext fun k => by rw [prInU_unscaled d _ C hC hδ k]]
    rw [← heq]
    exact hpb.2
  · have heq : dualVecU d (qp_solve_outer d inner rest fuel s0).2
        = (fun j =>
            d.gu j + mulVec H (unscale_primal_in_place d.delta
              (qp_solve_outer d inner rest fuel s0).2.x) j
            + mulVecT A (unscale_dual_in_place_eq d.delta d.c n
              (qp_solve_outer d inner rest fuel s0).2.y) j
            + mulVecT C (unscale_dual_in_place_in d.delta d.c (n + nEq)
              (qp_solve_outer d inner rest fuel s0).2.z) j) := by
      funext j
      rw [dualVecU_unscaled d _ H A C hH hA hC hg hδ hc j]
    rw [← heq]
    exact hdb

/-- A concrete trivially solved QP instance (all data zero, identity
preconditioner state, `eps_abs = 1`, `eps_rel = 0`). -/
def qpDataZero : QpData 1 1 1 :=
  { Hs := fun _ _ => 0, gs := fun _ => 0, As := fun _ _ => 0, Cs := fun _ _ => 0
    bu := fun _ => 0, lu := fun _ => 0, uu := fun _ => 0, gu := fun _ => 0
    delta := fun _ => 1, c := 1, epsAbs := 1, epsRel := 0 }

/-- Zero iterates. -/
def iterZero : Iterates 1 1 1 := ⟨fun _ => 0, fun _ => 0, fun _ => 0⟩

/-- The trivial instance converges at the first outer check. -/
theorem qpDataZero_solved : (qp_solve_outer qpDataZero id id 1 iterZero).1 = true := by
  show (qp_solve_outer qpDataZero id id (0 + 1) iterZero).1 = true
  have hct : convergence_test qpDataZero iterZero = true := by
    rw [convergence_test, Bool.and_eq_true]
    constructor
    · rw [is_primal_feasible, decide_eq_true_eq]
      norm_num [qpDataZero, primal_lhs, prEqU, prInU, mulVec, dotQ, inftyNorm,
        inftyNormL, List.ofFn_succ, posPart, negPart, iterZero]
    · rw [is_dual_feasible, decide_eq_true_eq]
      norm_num [qpDataZero, dual_lhs, dualVecU, mulVec, mulVecT, dotQ, inftyNorm,
        inftyNormL, List.ofFn_succ, iterZero]
  simp [qp_solve_outer, hct]

/-- Witness for `qp_solve_kkt_residual_bound` at the trivial solved
instance. -/
theorem qp_solve_kkt_residual_bound_witness :
    (∀ k, qpDataZero.delta k ≠ 0) ∧ qpDataZero.c ≠ 0 ∧
    (qp_solve_outer qpDataZero id id 1 iterZero).1 = true ∧
    (inftyNorm (fun i =>
        mulVec (fun _ _ : Fin 1 => (0 : ℚ)) (unscale_primal_in_place qpDataZero.delta
          (qp_solve_outer qpDataZero id id 1 iterZero).2.x) i - qpDataZero.bu i)
      ≤ qpDataZero.epsAbs + qpDataZero.epsRel
          * maxPrimalRef qpDataZero (qp_solve_outer qpDataZero id id 1 iterZero).2 ∧
    inftyNorm (fun i =>
        posPart (fun k => mulVec (fun _ _ : Fin 1 => (0 : ℚ))
          (unscale_primal_in_place qpDataZero.delta
            (qp_solve_outer qpDataZero id id 1 iterZero).2.x) k - qpDataZero.uu k) i +
        negPart (fun k => mulVec (fun _ _ : Fin 1 => (0 : ℚ))
          (unscale_primal_in_place qpDataZero.delta
            (qp_solve_outer qpDataZero id id 1 iterZero).2.x) k - qpDataZero.lu k) i)
      ≤ qpDataZero.epsAbs + qpDataZero.epsRel
          * maxPrimalRef qpDataZero (qp_solve_outer qpDataZero id id 1 iterZero).2 ∧
    inftyNorm (fun j =>
        qpDataZero.gu j + mulVec (fun _ _ : Fin 1 => (0 : ℚ))
          (unscale_primal_in_place qpDataZero.delta
            (qp_solve_outer qpDataZero id id 1 iterZero).2.x) j
        + mulVecT (fun _ _ : Fin 1 => (0 : ℚ))
          (unscale_dual_in_place_eq qpDataZero.delta qpDataZero.c 1
            (qp_solve_outer qpDataZero id id 1 iterZero).2.y) j
        + mulVecT (fun _ _ : Fin 1 => (0 : ℚ))
          (unscale_dual_in_place_in qpDataZero.delta qpDataZero.c (1 + 1)
            (qp_solve_outer qpDataZero id id 1 iterZero).2.z) j)
      ≤ qpDataZero.epsAbs + qpDataZero.epsRel
          * maxDualRef qpDataZero (qp_solve_outer qpDataZero id id 1 iterZero).2) :=
  ⟨fun _ => by norm_num [qpDataZero], by norm_num [qpDataZero], qpDataZero_solved,
    qp_solve_kkt_residual_bound qpDataZero id id 1 iterZero
      (fun _ _ => 0) (fun _ _ => 0) (fun _ _ => 0)
      (fun i j => by norm_num [qpDataZero])
      (fun i j => by norm_num [qpDataZero])
      (fun i j => by norm_num [qpDataZero])
      (fun j => by norm_num [qpDataZero])
      (fun k => by norm_num [qpDataZero])
      (by norm_num [qpDataZero])
      qpDataZero_solved⟩

end ProxQP
